import Mathlib

/-! RSSCollector: selection, delivery and markup normalisation.

A shallow embedding of `main.go`.  Go strings are Lean strings and Go's
`len` of a string is `String.utf8ByteSize`.  The bolt database file is an
explicit value of type `DB` threaded through the functions that open it.
Library code that is not part of the repository (the HTML tokenizer,
`html.UnescapeString`, `time.Parse`, `sort.Sort`, `json.Marshal` and the
Telegram client) is collected in the record `Env`; general theorems hold
for every `Env`, concrete evaluations use `sampleEnv`.
-/

namespace RSSCollector

/-! ## Data model -/

/-- One feed item (`type Item struct`). -/
structure Item where
  Title : String
  Link : String
  Description : String
  Content : String
  PubDate : String
  Comments : String
deriving DecidableEq, Repr

/-- The decoded feed (`type Rss2 struct`, without the XML name). -/
structure Rss2 where
  Version : String
  Title : String
  Link : String
  Description : String
  PubDate : String
  ItemList : List Item
deriving DecidableEq, Repr

/-- The items selected for sending (`type SendItems struct`). -/
structure SendItems where
  ItemList : List Item
deriving DecidableEq, Repr

/-- Token kinds of `golang.org/x/net/html`. -/
inductive TokenType where
  | ErrorToken
  | TextToken
  | StartTagToken
  | EndTagToken
  | SelfClosingTagToken
  | CommentToken
  | DoctypeToken
deriving DecidableEq, Repr

/-- An attribute of a tag token (`html.Attribute`). -/
structure Attribute where
  Namespace : String
  Key : String
  Val : String
deriving DecidableEq, Repr

/-- A token as returned by `Tokenizer.Token` (`html.Token`); `Typ` is the
field `Type`.  For a text token `Data` is the text that `Tokenizer.Text`
returns. -/
structure Token where
  Typ : TokenType
  Data : String
  Attr : List Attribute
deriving DecidableEq, Repr

/-- Run-time panics the program can raise. -/
inductive Panic where
  | nilBucket
  | indexOutOfRange
  | newBotAPI
  | send
deriving DecidableEq, Repr

/-- Code from outside the repository.
* `timeParseUnix layout value` is `time.Parse(layout, value)` followed by
  `Unix()`, `none` when `time.Parse` returns an error;
* `sortSort less l` is `sort.Sort` on a slice with contents `l` whose
  `Less` compares elements with `less`;
* `UnescapeString` is `html.UnescapeString`;
* `tokenize s` is the sequence of tokens `html.NewTokenizer` yields on `s`
  before it reports the end of the input;
* `jsonMarshal` is `json.Marshal` on an `Item`;
* `NewBotAPI i` and `Send i msg` tell whether `tgbotapi.NewBotAPI` and
  `bot.Send` succeed in the loop iteration with index `i`. -/
structure Env where
  timeParseUnix : String → String → Option Int
  sortSort : (Item → Item → Bool) → List Item → List Item
  UnescapeString : String → String
  tokenize : String → List Token
  jsonMarshal : Item → String
  NewBotAPI : Nat → Bool
  Send : Nat → String → Bool

/-! ## The bolt store -/

/-- Errors of the bolt operations the program calls. -/
inductive BoltError where
  | ErrBucketNameRequired
  | ErrKeyRequired
  | ErrKeyTooLarge
  | ErrValueTooLarge
deriving DecidableEq, Repr

/-- A bucket: its key/value pairs.  The program only tests keys for
equality, so the order of the pairs is not observed. -/
structure Bucket where
  entries : List (String × String)
deriving DecidableEq, Repr

/-- The database file: its top-level buckets by name. -/
structure DB where
  buckets : List (String × Bucket)
deriving DecidableEq, Repr

/-- Largest key bolt accepts, in bytes (`bolt.MaxKeySize`). -/
def MaxKeySize : Nat := 32768

/-- Largest value bolt accepts, in bytes (`bolt.MaxValueSize`). -/
def MaxValueSize : Nat := 2147483646

/-- The keys a cursor visits from `First` through `Next`. -/
def Bucket.keys (b : Bucket) : List String :=
  b.entries.map Prod.fst

/-- Replace the value stored under `key`, or add the pair. -/
def putEntry (key value : String) : List (String × String) → List (String × String)
  | [] => [(key, value)]
  | (k, v) :: rest =>
    if k = key then (key, value) :: rest else (k, v) :: putEntry key value rest

/-- `Bucket.Put`: rejects a blank key, a key over `MaxKeySize` and a value
over `MaxValueSize`; otherwise stores the pair, overwriting. -/
def Bucket.Put (b : Bucket) (key value : String) : Except BoltError Bucket :=
  if key.utf8ByteSize = 0 then .error .ErrKeyRequired
  else if key.utf8ByteSize > MaxKeySize then .error .ErrKeyTooLarge
  else if value.utf8ByteSize > MaxValueSize then .error .ErrValueTooLarge
  else .ok ⟨putEntry key value b.entries⟩

/-- Look a bucket up in the list of buckets. -/
def findBucket (name : String) : List (String × Bucket) → Option Bucket
  | [] => none
  | (n, b) :: rest => if n = name then some b else findBucket name rest

/-- `Tx.Bucket`: the bucket of that name, `none` for Go's nil.  No bucket has
a blank name. -/
def DB.TxBucket (db : DB) (name : String) : Option Bucket :=
  if name.utf8ByteSize = 0 then none else findBucket name db.buckets

/-- Replace the bucket stored under `name`, or add it. -/
def setBucket (name : String) (b : Bucket) : List (String × Bucket) → List (String × Bucket)
  | [] => [(name, b)]
  | (n, c) :: rest =>
    if n = name then (name, b) :: rest else (n, c) :: setBucket name b rest

/-- `Tx.CreateBucketIfNotExists`: the transaction's database afterwards and
the bucket; a blank name is an error. -/
def DB.CreateBucketIfNotExists (db : DB) (name : String) : Except BoltError (DB × Bucket) :=
  if name.utf8ByteSize = 0 then .error .ErrBucketNameRequired
  else
    match findBucket name db.buckets with
    | some b => .ok (db, b)
    | none => .ok (⟨setBucket name ⟨[]⟩ db.buckets⟩, ⟨[]⟩)

/-- `DB.Update`: commits what the function did when it returns no error and
rolls back otherwise.  The program never looks at the error returned. -/
def DB.Update (db : DB) (fn : DB → Except BoltError DB) : DB :=
  match fn db with
  | .ok db' => db'
  | .error _ => db

/-- Whether the feed's bucket holds `link` as a key
(`SeenStore.contains` of the specification). -/
def DB.contains (db : DB) (rssname link : String) : Bool :=
  match db.TxBucket rssname with
  | none => false
  | some b => decide (link ∈ b.keys)

/-! ## Selection -/

/-- The layout of publication dates. -/
def pubDateLayout : String := "Mon, 02 Jan 2006 15:04:05 -0700"

/-- `Unix()` of Go's zero `time.Time`, 0001-01-01 00:00:00 UTC. -/
def zeroTimeUnix : Int := -62135596800

/-- `time.Parse` with the error dropped, then `Unix()`: on an error
`time.Parse` returns the zero time. -/
def pubDateUnix (env : Env) (pubDate : String) : Int :=
  match env.timeParseUnix pubDateLayout pubDate with
  | some t => t
  | none => zeroTimeUnix

/-- `ByPubDate.Less` on the two elements compared. -/
def ByPubDate.Less (env : Env) (x y : Item) : Bool :=
  decide (pubDateUnix env x.PubDate > pubDateUnix env y.PubDate)

/-- The cursor loop of `ProcessRss`: the flag after comparing `link` with
the keys from first to last. -/
def scanKeys (link : String) : List String → Bool
  | [] => false
  | key :: rest => if link = key then true else scanKeys link rest

/-- The `for _, v := range rss.ItemList` loop of `ProcessRss`, with the
items appended to `si.ItemList` so far.  A nil bucket makes `b.Cursor()`
panic. -/
def selectLoop (db : DB) (rssname : String) : List Item → List Item → Except Panic (List Item)
  | [], acc => .ok acc
  | v :: rest, acc =>
    match db.TxBucket rssname with
    | none => .error .nilBucket
    | some b =>
      if scanKeys v.Link b.keys then selectLoop db rssname rest acc
      else selectLoop db rssname rest (acc ++ [v])

/-- The first `db.Update` call of `ProcessRss`, which creates the feed's
bucket when it is missing. -/
def ensureBucket (db : DB) (rssname : String) : DB :=
  db.Update (fun tx =>
    match tx.CreateBucketIfNotExists rssname with
    | .error e => .error e
    | .ok (tx1, _) => .ok tx1)

/-- `ProcessRss`: the database afterwards and the returned pointer (`none`
for nil), or the panic raised. -/
def ProcessRss (env : Env) (db : DB) (rss : Rss2) (rssname : String) :
    Except Panic (DB × Option SendItems) :=
  let db1 := ensureBucket db rssname
  match selectLoop db1 rssname rss.ItemList [] with
  | .error p => .error p
  | .ok items =>
    let sorted := env.sortSort (ByPubDate.Less env) items
    if sorted.length > 0 then .ok (db1, some ⟨sorted⟩) else .ok (db1, none)

/-- The entries a result of `ProcessRss` holds, none for nil. -/
def selected : Option SendItems → List Item
  | none => []
  | some si => si.ItemList

/-! ## `sort.Sort` -/

/-- A strict weak order, what `sort.Sort` expects of `Less`. -/
structure StrictWeakOrder (less : Item → Item → Bool) : Prop where
  irrefl : ∀ a, less a a = false
  trans : ∀ a b c, less a b = true → less b c = true → less a c = true
  negTrans : ∀ a b c, less a b = false → less b c = false → less a c = false

/-- The contract of `sort.Sort`: it only swaps elements, and for a strict
weak order no element of the result is less than an earlier one.  It is
not stable. -/
structure SortContract (sortFn : (Item → Item → Bool) → List Item → List Item) : Prop where
  perm : ∀ less l, (sortFn less l).Perm l
  sorted : ∀ less l, StrictWeakOrder less →
    (sortFn less l).Pairwise (fun a b => less b a = false)

/-- The inner loop of Go's `insertionSort`: the element `x` moves left past
every element it is less than.  The sorted part is held last-first. -/
def sinkLeft (less : Item → Item → Bool) (x : Item) : List Item → List Item
  | [] => [x]
  | y :: ys => if less x y then y :: sinkLeft less x ys else x :: y :: ys

/-- Go's `insertionSort`, which `sort.Sort` runs on short slices. -/
def insertionSort (less : Item → Item → Bool) (l : List Item) : List Item :=
  (l.foldl (fun acc x => sinkLeft less x acc) []).reverse

/-! ## Markup normalisation -/

/-- The whitelist of `NormalizeHTMLforTelegram`. -/
def tags : List String :=
  ["br", "img", "b", "strong", "i", "em", "code", "s", "strike", "del", "u", "pre"]

/-- `in_array` on a string and a slice of strings. -/
def in_array (val : String) : List String → Bool
  | [] => false
  | x :: rest => if val = x then true else in_array val rest

/-- `unicode.IsSpace`. -/
def isSpace (c : Char) : Bool :=
  let n := c.toNat
  (9 ≤ n && n ≤ 13) || n == 32 || n == 0x85 || n == 0xA0 || n == 0x1680 ||
    (0x2000 ≤ n && n ≤ 0x200A) || n == 0x2028 || n == 0x2029 || n == 0x202F ||
    n == 0x205F || n == 0x3000

/-- `strings.TrimSpace`. -/
def TrimSpace (s : String) : String :=
  ⟨((s.data.dropWhile isSpace).reverse.dropWhile isSpace).reverse⟩

/-- The variables of the loop of `NormalizeHTMLforTelegram`. -/
structure NormState where
  out : String
  previousStartTokenTest : Token
deriving DecidableEq, Repr

/-- How one pass through the loop body ends: with the next pass, with a
return, or with a panic. -/
inductive Flow where
  | next (s : NormState)
  | ret (out : String)
  | crash (p : Panic)
deriving DecidableEq, Repr

/-- The token `Tokenizer.Token` returns before the first `Next`, and the
one that stands for `html.ErrorToken` at the end of the input. -/
def errorToken : Token := ⟨.ErrorToken, "", []⟩

/-- What the length check appends before returning. -/
def truncationSuffix (prev : Token) : String :=
  if in_array prev.Data tags && prev.Data != "img" && prev.Data != "br" then
    "</" ++ prev.Data ++ "> ..."
  else " ..."

/-- One pass through the body of the `for` loop, `tt` being the token
`Next` has just produced. -/
def iteration (env : Env) (s : NormState) (tt : Token) : Flow :=
  if s.out.utf8ByteSize > 2500 then
    .ret (s.out ++ truncationSuffix s.previousStartTokenTest)
  else
    match tt.Typ with
    | .ErrorToken => .ret s.out
    | .StartTagToken =>
      if in_array tt.Data tags then
        if tt.Data = "br" then .next ⟨s.out ++ "\n", tt⟩
        else if tt.Data = "img" then
          match tt.Attr with
          | [] => .crash .indexOutOfRange
          | a :: _ =>
            if a.Key = "src" then .next ⟨s.out ++ (a.Val ++ " "), tt⟩
            else .next ⟨s.out ++ (" <" ++ tt.Data ++ ">"), tt⟩
        else .next ⟨s.out ++ (" <" ++ tt.Data ++ ">"), tt⟩
      else .next ⟨s.out, tt⟩
    | .EndTagToken =>
      if in_array tt.Data tags then
        .next ⟨s.out ++ ("</" ++ tt.Data ++ "> "), s.previousStartTokenTest⟩
      else .next s
    | .SelfClosingTagToken =>
      if in_array tt.Data tags then
        if tt.Data = "br" then .next ⟨s.out ++ "\n", s.previousStartTokenTest⟩
        else .next s
      else .next s
    | .TextToken =>
      if s.previousStartTokenTest.Data = "script" then .next s
      else
        let TxtContent := TrimSpace (env.UnescapeString tt.Data)
        if TxtContent.utf8ByteSize > 0 then
          .next ⟨s.out ++ TxtContent, s.previousStartTokenTest⟩
        else .next s
    | .CommentToken => .next s
    | .DoctypeToken => .next s

/-- The `for` loop over the tokens still to come; after the last one
`Next` produces `html.ErrorToken`. -/
def normalizeLoop (env : Env) : NormState → List Token → Except Panic String
  | s, [] =>
    match iteration env s errorToken with
    | .next s' => .ok s'.out
    | .ret out => .ok out
    | .crash p => .error p
  | s, tt :: rest =>
    match iteration env s tt with
    | .next s' => normalizeLoop env s' rest
    | .ret out => .ok out
    | .crash p => .error p

/-- `NormalizeHTMLforTelegram` on the tokens of its argument. -/
def NormalizeTokens (env : Env) (toks : List Token) : Except Panic String :=
  normalizeLoop env ⟨"", errorToken⟩ toks

/-- `NormalizeHTMLforTelegram`. -/
def NormalizeHTMLforTelegram (env : Env) (s : String) : Except Panic String :=
  NormalizeTokens env (env.tokenize s)

/-- The loop state after the tokens `toks` have each been processed by a
pass that went on to the next pass; `none` when a pass returned or
panicked. -/
def passes (env : Env) : NormState → List Token → Option NormState
  | s, [] => some s
  | s, tt :: rest =>
    match iteration env s tt with
    | .next s' => passes env s' rest
    | _ => none

/-- The most one pass appends for the token: the trimmed unescaped text
for a text token, the value of the first attribute and a space for an image
start tag whose first attribute is src, and a marker of at most 10 bytes
otherwise. -/
def pieceSize (env : Env) (tt : Token) : Nat :=
  match tt.Typ with
  | .TextToken => (TrimSpace (env.UnescapeString tt.Data)).utf8ByteSize
  | .StartTagToken =>
    match tt.Attr with
    | a :: _ => if tt.Data = "img" ∧ a.Key = "src" then a.Val.utf8ByteSize + 1 else 10
    | [] => 10
  | _ => 10

/-- The tokens without the tags outside the whitelist: their end tags and
self-closing tags are dropped, their start tags other than script lose name
and attributes. -/
def stripUnlisted : List Token → List Token
  | [] => []
  | tt :: rest =>
    match tt.Typ with
    | .StartTagToken =>
      if in_array tt.Data tags || tt.Data == "script" then tt :: stripUnlisted rest
      else ⟨.StartTagToken, "", []⟩ :: stripUnlisted rest
    | .EndTagToken =>
      if in_array tt.Data tags then tt :: stripUnlisted rest else stripUnlisted rest
    | .SelfClosingTagToken =>
      if in_array tt.Data tags then tt :: stripUnlisted rest else stripUnlisted rest
    | _ => tt :: stripUnlisted rest

/-- The last start tag token among the tokens, or `prev` when there is
none. -/
def lastStartTag (prev : Token) : List Token → Token
  | [] => prev
  | tt :: rest =>
    if tt.Typ = .StartTagToken then lastStartTag tt rest else lastStartTag prev rest

/-- What a pass that goes on appended stays within `n` bytes. -/
def GrowsBy (s : NormState) (n : Nat) : Flow → Prop
  | .next s' => s'.out.utf8ByteSize ≤ s.out.utf8ByteSize + n
  | _ => True

/-- What a returning pass returns is the output so far or that and a
suffix. -/
def ReturnsWithin (s : NormState) : Flow → Prop
  | .ret out => out.utf8ByteSize ≤ s.out.utf8ByteSize + 13
  | _ => True

/-! ## Sending and recording -/

/-- What a run of `SendAndWriteToDB` leaves behind: the database, the
entries whose `bot.Send` succeeded with the text sent, in the order of
sending, and the panic that ended the run, if any. -/
structure RunResult where
  db : DB
  sent : List (Item × String)
  aborted : Option Panic
deriving DecidableEq, Repr

/-- The text of the message for `v`, given the normalised description. -/
def messageText (rssname : String) (v : Item) (body : String) : String :=
  "<i>" ++ rssname ++ "</i>\n\n" ++ "<b>" ++ v.Title ++ "</b>\n\n" ++ body ++ "\n\n" ++ v.Link

/-- The `db.Update` call of `SendAndWriteToDB` for the entry `v`. -/
def record (env : Env) (rssname : String) (db : DB) (v : Item) : DB :=
  db.Update (fun tx =>
    match tx.CreateBucketIfNotExists rssname with
    | .error e => .error e
    | .ok (tx1, b) =>
      match b.Put v.Link (env.jsonMarshal v) with
      | .error e => .error e
      | .ok b' => .ok ⟨setBucket rssname b' tx1.buckets⟩)

/-- The entry's link and snapshot are a key and a value bolt accepts. -/
def storable (env : Env) (v : Item) : Prop :=
  v.Link ≠ "" ∧ v.Link.utf8ByteSize ≤ MaxKeySize ∧
    (env.jsonMarshal v).utf8ByteSize ≤ MaxValueSize

/-- What happens to the entry `v` at index `i` before anything is
recorded: the bot is created, the message is built and sent.  The text
sent, or the panic. -/
def deliver (env : Env) (rssname : String) (i : Nat) (v : Item) : Except Panic String :=
  if env.NewBotAPI i then
    match NormalizeHTMLforTelegram env (env.UnescapeString v.Description) with
    | .error p => .error p
    | .ok body =>
      let s := messageText rssname v body
      if env.Send i s then .ok s else .error .send
  else .error .newBotAPI

/-- The loop `for i := len(send.ItemList) - 1; i >= 0; i--`, entered with
`i + 1 = n`. -/
def sendLoop (env : Env) (rssname : String) (items : List Item) : Nat → RunResult → RunResult
  | 0, r => r
  | i + 1, r =>
    match items[i]? with
    | none => r
    | some v =>
      match deliver env rssname i v with
      | .error p => { r with aborted := some p }
      | .ok s =>
        sendLoop env rssname items i
          { db := record env rssname r.db v, sent := r.sent ++ [(v, s)], aborted := none }

/-- `SendAndWriteToDB`. -/
def SendAndWriteToDB (env : Env) (db : DB) (send : SendItems) (rssname : String) : RunResult :=
  sendLoop env rssname send.ItemList send.ItemList.length ⟨db, [], none⟩

/-- The body of the loop over the feeds in `main`, after the feed has been
fetched. -/
def mainFeed (env : Env) (db : DB) (rss : Rss2) (name : String) : RunResult :=
  match ProcessRss env db rss name with
  | .error p => ⟨db, [], some p⟩
  | .ok (db1, none) => ⟨db1, [], none⟩
  | .ok (db1, some send) =>
    if send.ItemList.length > 0 then SendAndWriteToDB env db1 send name
    else ⟨db1, [], none⟩

/-! ## A concrete environment -/

/-- The value of a decimal digit. -/
def digitVal (c : Char) : Option Nat :=
  if '0' ≤ c ∧ c ≤ '9' then some (c.toNat - 48) else none

/-- Read `n` decimal digits. -/
def readDigits : Nat → Nat → List Char → Option (Nat × List Char)
  | 0, acc, cs => some (acc, cs)
  | _ + 1, _, [] => none
  | n + 1, acc, c :: cs =>
    match digitVal c with
    | none => none
    | some d => readDigits n (10 * acc + d) cs

/-- Read the characters `lit`. -/
def readLit : List Char → List Char → Option (List Char)
  | [], cs => some cs
  | _ :: _, [] => none
  | l :: ls, c :: cs => if l = c then readLit ls cs else none

/-- Read one of the names and give its position in the list. -/
def readName (names : List String) (cs : List Char) : Option (Nat × List Char) :=
  match names.indexOf (String.mk (cs.take 3)) with
  | i => if i < names.length then some (i, cs.drop 3) else none

/-- Days in a month of the Gregorian calendar. -/
def daysIn (month year : Nat) : Nat :=
  if month = 2 then
    if year % 4 = 0 ∧ (year % 100 ≠ 0 ∨ year % 400 = 0) then 29 else 28
  else if month = 4 ∨ month = 6 ∨ month = 9 ∨ month = 11 then 30
  else 31

/-- Days from 1970-01-01 to the given day of the proleptic Gregorian
calendar, for years from 0. -/
def daysFromCivil (year month day : Nat) : Int :=
  let y := if month ≤ 2 then year + 399 else year + 400
  let era := y / 400
  let yoe := y % 400
  let mp := if month ≤ 2 then month + 9 else month - 3
  let doy := (153 * mp + 2) / 5 + (day - 1)
  let doe := yoe * 365 + yoe / 4 - yoe / 100 + doy
  ((era * 146097 + doe : Nat) : Int) - 865565

/-- Read the sign of a zone offset. -/
def readSign : List Char → Option (Int × List Char)
  | [] => none
  | c :: r => if c = '+' then some (1, r) else if c = '-' then some (-1, r) else none

/-- Whether the fields read are in range. -/
def fieldsInRange (year month day hour min sec zh zm : Nat) : Bool :=
  decide (1 ≤ day) && decide (day ≤ daysIn month year) && decide (hour < 24) &&
    decide (min < 60) && decide (sec < 60) && decide (zh < 24) && decide (zm < 60)

/-- Unix seconds of a civil time with a zone offset. -/
def civilUnix (year month day hour min sec : Nat) (sign : Int) (zh zm : Nat) : Int :=
  daysFromCivil year month day * 86400 + Int.ofNat (hour * 3600 + min * 60 + sec)
    - sign * Int.ofNat (zh * 3600 + zm * 60)

/-- Read the date fields: day, month (from 1) and year. -/
def readDate (cs : List Char) : Option ((Nat × Nat × Nat) × List Char) :=
  match readName ["Mon", "Tue", "Wed", "Thu", "Fri", "Sat", "Sun"] cs with
  | none => none
  | some (_, cs) =>
  match readLit [',', ' '] cs with
  | none => none
  | some cs =>
  match readDigits 2 0 cs with
  | none => none
  | some (day, cs) =>
  match readLit [' '] cs with
  | none => none
  | some cs =>
  match readName ["Jan", "Feb", "Mar", "Apr", "May", "Jun", "Jul", "Aug", "Sep", "Oct", "Nov",
      "Dec"] cs with
  | none => none
  | some (m, cs) =>
  match readLit [' '] cs with
  | none => none
  | some cs =>
  match readDigits 4 0 cs with
  | none => none
  | some (year, cs) => some ((day, m + 1, year), cs)

/-- Read the clock fields: hour, minute and second. -/
def readClock (cs : List Char) : Option ((Nat × Nat × Nat) × List Char) :=
  match readDigits 2 0 cs with
  | none => none
  | some (hour, cs) =>
  match readLit [':'] cs with
  | none => none
  | some cs =>
  match readDigits 2 0 cs with
  | none => none
  | some (min, cs) =>
  match readLit [':'] cs with
  | none => none
  | some cs =>
  match readDigits 2 0 cs with
  | none => none
  | some (sec, cs) => some ((hour, min, sec), cs)

/-- Read the zone offset: sign, hours and minutes. -/
def readZone (cs : List Char) : Option ((Int × Nat × Nat) × List Char) :=
  match readSign cs with
  | none => none
  | some (sign, cs) =>
  match readDigits 2 0 cs with
  | none => none
  | some (zh, cs) =>
  match readDigits 2 0 cs with
  | none => none
  | some (zm, cs) => some ((sign, zh, zm), cs)

/-- The instants `time.Parse` yields for the layout of publication dates on
values written in that layout's own fixed-width form with every field in
range, as Unix seconds.  The weekday is read and not compared with the
date.  Values in any other form are reported as errors here. -/
def sampleTimeParseUnix (layout value : String) : Option Int :=
  if layout = pubDateLayout then
    match readDate value.data with
    | none => none
    | some ((day, month, year), cs) =>
    match readLit [' '] cs with
    | none => none
    | some cs =>
    match readClock cs with
    | none => none
    | some ((hour, min, sec), cs) =>
    match readLit [' '] cs with
    | none => none
    | some cs =>
    match readZone cs with
    | none => none
    | some ((sign, zh, zm), cs) =>
      if cs.isEmpty && fieldsInRange year month day hour min sec zh zm then
        some (civilUnix year month day hour min sec sign zh zm)
      else none
  else none

/-- The tokens of a fragment that holds no markup: one text token, none for
the empty fragment. -/
def sampleTokenize (s : String) : List Token :=
  if s.utf8ByteSize = 0 then [] else [⟨.TextToken, s, []⟩]

/-- The JSON object `json.Marshal` writes for an item whose strings need no
escaping. -/
def sampleMarshal (v : Item) : String :=
  "\x7b\"Title\":\"" ++ v.Title ++ "\",\"Link\":\"" ++ v.Link ++ "\",\"Description\":\"" ++
    v.Description ++ "\",\"Content\":\"" ++ v.Content ++ "\",\"PubDate\":\"" ++ v.PubDate ++
    "\",\"Comments\":\"" ++ v.Comments ++ "\"\x7d"

/-- An environment for concrete runs: publication dates in canonical form,
strings without markup or character references (on which
`html.UnescapeString` changes nothing), slices short enough for
`sort.Sort` to use insertion sort, and a Telegram client that always
succeeds. -/
def sampleEnv : Env where
  timeParseUnix := sampleTimeParseUnix
  sortSort := insertionSort
  UnescapeString := fun s => s
  tokenize := sampleTokenize
  jsonMarshal := sampleMarshal
  NewBotAPI := fun _ => true
  Send := fun _ _ => true

/-- An item with the given link, publication date and description. -/
def mkItem (link pubDate description : String) : Item :=
  ⟨"title", link, description, "", pubDate, ""⟩

/-- A feed with the given items. -/
def mkRss (items : List Item) : Rss2 :=
  ⟨"2.0", "feed", "", "", "", items⟩

/-- Entry a of the scenario of the specification. -/
def itemA : Item := mkItem "a" "Mon, 01 Jan 2024 10:00:00 +0000" "first"

/-- Entry b of the scenario of the specification. -/
def itemB : Item := mkItem "b" "Mon, 01 Jan 2024 09:00:00 +0000" "second"

/-- An entry older than a and b. -/
def itemC : Item := mkItem "c" "Mon, 01 Jan 2024 08:00:00 +0000" ""

/-- An entry without a link. -/
def itemNoLink : Item := mkItem "" "Mon, 01 Jan 2024 10:00:00 +0000" "third"

/-- An entry published an hour before Go's zero time. -/
def itemAncient : Item := mkItem "old" "Mon, 01 Jan 0001 00:00:00 +0100" ""

/-- An entry whose publication date does not parse. -/
def itemBadDate : Item := mkItem "bad" "yesterday" ""

/-- A store in which entry a of feed Test has been recorded. -/
def storeWithA : DB := ⟨[("Test", ⟨[("a", sampleMarshal itemA)]⟩)]⟩

/-- A string of `n` letters a. -/
def letters (n : Nat) : String := ⟨List.replicate n 'a'⟩

/-- A start tag token. -/
def startTag (name : String) (attr : List Attribute) : Token := ⟨.StartTagToken, name, attr⟩

/-- An end tag token. -/
def endTag (name : String) : Token := ⟨.EndTagToken, name, []⟩

/-- A text token. -/
def textTok (text : String) : Token := ⟨.TextToken, text, []⟩

/-! ## Strings -/

theorem size_append (a b : String) :
    (a ++ b).utf8ByteSize = a.utf8ByteSize + b.utf8ByteSize := by
  cases a with
  | mk x =>
    cases b with
    | mk y =>
      show String.utf8Len (x ++ y) = String.utf8Len x + String.utf8Len y
      exact String.utf8Len_append x y

theorem size_eq_zero (s : String) : s.utf8ByteSize = 0 ↔ s = "" := by
  cases s with
  | mk cs =>
    simp only [String.utf8ByteSize_mk, String.utf8Len_eq_zero]
    constructor
    · intro h
      subst h
      rfl
    · intro h
      exact congrArg String.data h

/-! ## Insertion sort meets the contract of `sort.Sort` -/

theorem sinkLeft_perm (less : Item → Item → Bool) (x : Item) (l : List Item) :
    (sinkLeft less x l).Perm (x :: l) := by
  induction l with
  | nil => exact List.Perm.refl _
  | cons y ys ih =>
    unfold sinkLeft
    split
    · exact ((List.Perm.cons y ih).trans (List.Perm.swap x y ys))
    · exact List.Perm.refl _

theorem foldl_sinkLeft_perm (less : Item → Item → Bool) (l acc : List Item) :
    (l.foldl (fun acc x => sinkLeft less x acc) acc).Perm (l ++ acc) := by
  induction l generalizing acc with
  | nil => exact List.Perm.refl _
  | cons x xs ih =>
    simp only [List.foldl_cons, List.cons_append]
    refine (ih _).trans ?_
    refine (List.Perm.append_left xs (sinkLeft_perm less x acc)).trans ?_
    exact List.perm_middle

theorem insertionSort_perm (less : Item → Item → Bool) (l : List Item) :
    (insertionSort less l).Perm l := by
  unfold insertionSort
  refine (List.reverse_perm _).trans ?_
  simpa using foldl_sinkLeft_perm less l []

theorem StrictWeakOrder.asymm {less : Item → Item → Bool} (h : StrictWeakOrder less)
    {a b : Item} (hab : less a b = true) : less b a = false := by
  cases hba : less b a with
  | false => rfl
  | true =>
    have := h.trans a b a hab hba
    rw [h.irrefl a] at this
    exact absurd this (by decide)

theorem sinkLeft_sorted {less : Item → Item → Bool} (h : StrictWeakOrder less) (x : Item)
    (l : List Item) (hl : l.Pairwise (fun a b => less a b = false)) :
    (sinkLeft less x l).Pairwise (fun a b => less a b = false) := by
  induction l with
  | nil => simp [sinkLeft]
  | cons y ys ih =>
    rw [List.pairwise_cons] at hl
    unfold sinkLeft
    split
    · rename_i hxy
      rw [List.pairwise_cons]
      refine ⟨?_, ih hl.2⟩
      intro b hb
      rcases List.mem_cons.mp ((sinkLeft_perm less x ys).mem_iff.mp hb) with hb | hb
      · subst hb
        exact h.asymm hxy
      · exact hl.1 b hb
    · rename_i hxy
      have hxy' : less x y = false := by simpa using hxy
      rw [List.pairwise_cons, List.pairwise_cons]
      refine ⟨?_, hl⟩
      intro b hb
      rcases List.mem_cons.mp hb with hb | hb
      · subst hb
        exact hxy'
      · exact h.negTrans x y b hxy' (hl.1 b hb)

theorem foldl_sinkLeft_sorted {less : Item → Item → Bool} (h : StrictWeakOrder less)
    (l acc : List Item) (hacc : acc.Pairwise (fun a b => less a b = false)) :
    (l.foldl (fun acc x => sinkLeft less x acc) acc).Pairwise (fun a b => less a b = false) := by
  induction l generalizing acc with
  | nil => exact hacc
  | cons x xs ih => exact ih _ (sinkLeft_sorted h x acc hacc)

theorem insertionSort_contract : SortContract insertionSort where
  perm := insertionSort_perm
  sorted := by
    intro less l h
    unfold insertionSort
    rw [List.pairwise_reverse]
    exact foldl_sinkLeft_sorted h l [] List.Pairwise.nil

theorem ByPubDate.strictWeakOrder (env : Env) : StrictWeakOrder (ByPubDate.Less env) where
  irrefl := by
    intro a
    simp [ByPubDate.Less]
  trans := by
    intro a b c hab hbc
    simp only [ByPubDate.Less, decide_eq_true_eq] at *
    omega
  negTrans := by
    intro a b c hab hbc
    simp only [ByPubDate.Less, decide_eq_false_iff_not] at *
    omega

/-! ## The store -/

theorem findBucket_setBucket_same (name : String) (b : Bucket) (l : List (String × Bucket)) :
    findBucket name (setBucket name b l) = some b := by
  induction l with
  | nil => simp [setBucket, findBucket]
  | cons p rest ih =>
    obtain ⟨n, c⟩ := p
    by_cases h : n = name
    · simp [setBucket, findBucket, h]
    · simp [setBucket, findBucket, h, ih]

theorem findBucket_setBucket_other (name other : String) (b : Bucket)
    (l : List (String × Bucket)) (h : other ≠ name) :
    findBucket other (setBucket name b l) = findBucket other l := by
  induction l with
  | nil =>
    have h' : ¬ name = other := fun e => h e.symm
    simp [setBucket, findBucket, h']
  | cons p rest ih =>
    obtain ⟨n, c⟩ := p
    by_cases hn : n = name
    · have h' : ¬ name = other := fun e => h e.symm
      have h'' : ¬ n = other := fun e => h (e.symm.trans hn)
      simp [setBucket, findBucket, hn, h', h'']
    · by_cases ho : n = other
      · subst ho
        simp [setBucket, findBucket, hn]
      · simp [setBucket, findBucket, hn, ho, ih]

theorem size_ne_zero {s : String} (h : s ≠ "") : ¬ s.utf8ByteSize = 0 :=
  fun e => h ((size_eq_zero s).mp e)

theorem ensureBucket_bucket (db : DB) (rssname : String) (hname : rssname ≠ "") :
    ∃ b, (ensureBucket db rssname).TxBucket rssname = some b ∧
      ∀ link, link ∈ b.keys ↔ db.contains rssname link = true := by
  have hz := size_ne_zero hname
  unfold ensureBucket DB.Update DB.CreateBucketIfNotExists
  simp only [hz, if_false]
  cases hf : findBucket rssname db.buckets with
  | some b =>
    refine ⟨b, ?_, ?_⟩
    · simp [DB.TxBucket, hz, hf]
    · intro link
      simp [DB.contains, DB.TxBucket, hz, hf]
  | none =>
    refine ⟨⟨[]⟩, ?_, ?_⟩
    · simp [DB.TxBucket, hz, findBucket_setBucket_same]
    · intro link
      simp [DB.contains, DB.TxBucket, hz, hf, Bucket.keys]

theorem ensureBucket_contains (db : DB) (rssname name link : String) :
    (ensureBucket db rssname).contains name link = db.contains name link := by
  unfold ensureBucket DB.Update DB.CreateBucketIfNotExists
  by_cases hz : rssname.utf8ByteSize = 0
  · simp [hz]
  · simp only [hz, if_false]
    cases hf : findBucket rssname db.buckets with
    | some b => rfl
    | none =>
      by_cases hn : name = rssname
      · subst hn
        simp [DB.contains, DB.TxBucket, hz, hf, findBucket_setBucket_same, Bucket.keys]
      · simp [DB.contains, DB.TxBucket, findBucket_setBucket_other _ _ _ _ hn]

theorem ensureBucket_idem (db : DB) (rssname : String) :
    ensureBucket (ensureBucket db rssname) rssname = ensureBucket db rssname := by
  by_cases hz : rssname.utf8ByteSize = 0
  · simp [ensureBucket, DB.Update, DB.CreateBucketIfNotExists, hz]
  · cases hf : findBucket rssname db.buckets with
    | some b =>
      simp [ensureBucket, DB.Update, DB.CreateBucketIfNotExists, hz, hf]
    | none =>
      simp [ensureBucket, DB.Update, DB.CreateBucketIfNotExists, hz, hf,
        findBucket_setBucket_same]

theorem scanKeys_eq (link : String) (keys : List String) :
    scanKeys link keys = decide (link ∈ keys) := by
  induction keys with
  | nil => simp [scanKeys]
  | cons k rest ih =>
    by_cases h : link = k
    · simp [scanKeys, h]
    · simp [scanKeys, h, ih]

theorem selectLoop_eq (db : DB) (rssname : String) (b : Bucket)
    (hb : db.TxBucket rssname = some b) (l acc : List Item) :
    selectLoop db rssname l acc
      = .ok (acc ++ l.filter (fun v => !decide (v.Link ∈ b.keys))) := by
  induction l generalizing acc with
  | nil => simp [selectLoop]
  | cons v rest ih =>
    unfold selectLoop
    simp only [hb, scanKeys_eq]
    by_cases hv : v.Link ∈ b.keys
    · simp [hv, ih]
    · simp [hv, ih]

theorem filter_unseen_congr (db : DB) (rssname : String) (b : Bucket)
    (hb : ∀ link, link ∈ b.keys ↔ db.contains rssname link = true) (l : List Item) :
    l.filter (fun v => !decide (v.Link ∈ b.keys))
      = l.filter (fun v => !db.contains rssname v.Link) := by
  apply List.filter_congr
  intro v _
  by_cases h : v.Link ∈ b.keys
  · simp [h, (hb v.Link).mp h]
  · have : db.contains rssname v.Link = false := by
      cases hc : db.contains rssname v.Link with
      | false => rfl
      | true => exact absurd ((hb v.Link).mpr hc) h
    simp [h, this]

/-! ## Recording -/

theorem setBucket_setBucket (name : String) (b c : Bucket) (l : List (String × Bucket)) :
    setBucket name b (setBucket name c l) = setBucket name b l := by
  induction l with
  | nil => simp [setBucket]
  | cons p rest ih =>
    obtain ⟨n, d⟩ := p
    by_cases hn : n = name
    · simp [setBucket, hn]
    · simp [setBucket, hn, ih]

theorem mem_keys_putEntry (key value k : String) (l : List (String × String)) :
    k ∈ (putEntry key value l).map Prod.fst ↔ k = key ∨ k ∈ l.map Prod.fst := by
  induction l with
  | nil => simp [putEntry]
  | cons p rest ih =>
    obtain ⟨a, b⟩ := p
    by_cases ha : a = key
    · subst ha
      simp [putEntry]
    · simp only [putEntry, ha, if_false, List.map_cons, List.mem_cons, ih]
      tauto

theorem record_eq_self_of_blank (env : Env) (db : DB) (v : Item) :
    record env "" db v = db := by
  simp [record, DB.Update, DB.CreateBucketIfNotExists]
  rfl

theorem record_eq_self_of_not_storable (env : Env) (rssname : String) (db : DB) (v : Item)
    (h : ¬ storable env v) : record env rssname db v = db := by
  unfold record DB.Update DB.CreateBucketIfNotExists
  by_cases hz : rssname.utf8ByteSize = 0
  · simp [hz]
  · have hput : ∀ b : Bucket, ∃ e, b.Put v.Link (env.jsonMarshal v) = .error e := by
      intro b
      unfold Bucket.Put
      by_cases h1 : v.Link.utf8ByteSize = 0
      · exact ⟨.ErrKeyRequired, by simp [h1]⟩
      · by_cases h2 : v.Link.utf8ByteSize > MaxKeySize
        · exact ⟨.ErrKeyTooLarge, by simp [h1, h2]⟩
        · by_cases h3 : (env.jsonMarshal v).utf8ByteSize > MaxValueSize
          · exact ⟨.ErrValueTooLarge, by simp [h1, h2, h3]⟩
          · exfalso
            apply h
            refine ⟨fun e => h1 ((size_eq_zero _).mpr e), by omega, by omega⟩
    simp only [hz, if_false]
    cases hf : findBucket rssname db.buckets with
    | some b =>
      obtain ⟨e, he⟩ := hput b
      simp [he]
    | none =>
      obtain ⟨e, he⟩ := hput ⟨[]⟩
      simp [he]

theorem record_eq (env : Env) (rssname : String) (db : DB) (v : Item)
    (hname : rssname ≠ "") (h : storable env v) :
    ∃ old : Bucket, (findBucket rssname db.buckets = some old ∨
        (findBucket rssname db.buckets = none ∧ old = ⟨[]⟩)) ∧
      record env rssname db v
        = ⟨setBucket rssname ⟨putEntry v.Link (env.jsonMarshal v) old.entries⟩ db.buckets⟩ := by
  have hz := size_ne_zero hname
  obtain ⟨h1, h2, h3⟩ := h
  have h1' := size_ne_zero h1
  have hput : ∀ b : Bucket, b.Put v.Link (env.jsonMarshal v)
      = .ok ⟨putEntry v.Link (env.jsonMarshal v) b.entries⟩ := by
    intro b
    unfold Bucket.Put
    have h2' : ¬ v.Link.utf8ByteSize > MaxKeySize := by omega
    have h3' : ¬ (env.jsonMarshal v).utf8ByteSize > MaxValueSize := by omega
    simp [h1', h2', h3']
  unfold record DB.Update DB.CreateBucketIfNotExists
  simp only [hz, if_false]
  cases hf : findBucket rssname db.buckets with
  | some b =>
    refine ⟨b, Or.inl rfl, ?_⟩
    simp [hput]
  | none =>
    refine ⟨⟨[]⟩, Or.inr ⟨rfl, rfl⟩, ?_⟩
    simp [hput, setBucket_setBucket]

theorem record_contains (env : Env) (rssname : String) (db : DB) (v : Item)
    (name link : String) :
    (record env rssname db v).contains name link = true ↔
      db.contains name link = true ∨
        (name = rssname ∧ link = v.Link ∧ rssname ≠ "" ∧ storable env v) := by
  by_cases hname : rssname = ""
  · subst hname
    rw [record_eq_self_of_blank]
    simp
  · by_cases hs : storable env v
    · obtain ⟨old, hold, heq⟩ := record_eq env rssname db v hname hs
      rw [heq]
      have hz := size_ne_zero hname
      by_cases hn : name = rssname
      · subst hn
        simp only [DB.contains, DB.TxBucket, hz, if_false, findBucket_setBucket_same,
          Bucket.keys, decide_eq_true_eq, mem_keys_putEntry]
        rcases hold with hold | ⟨hold, hnil⟩
        · simp only [hold, decide_eq_true_eq]
          constructor
          · rintro (h | h)
            · exact Or.inr ⟨trivial, h, hname, hs⟩
            · exact Or.inl h
          · rintro (h | ⟨_, h, _⟩)
            · exact Or.inr h
            · exact Or.inl h
        · subst hnil
          simp only [hold]
          constructor
          · rintro (h | h)
            · exact Or.inr ⟨trivial, h, hname, hs⟩
            · simp at h
          · rintro (h | ⟨_, h, _⟩)
            · simp at h
            · exact Or.inl h
      · have : (DB.contains ⟨setBucket rssname
            ⟨putEntry v.Link (env.jsonMarshal v) old.entries⟩ db.buckets⟩ name link)
            = db.contains name link := by
          simp [DB.contains, DB.TxBucket, findBucket_setBucket_other _ _ _ _ hn]
        rw [this]
        simp [hn]
    · rw [record_eq_self_of_not_storable env rssname db v hs]
      simp [hs]

theorem foldl_record_contains (env : Env) (rssname : String) (l : List Item) (db : DB)
    (name link : String) :
    (l.foldl (record env rssname) db).contains name link = true ↔
      db.contains name link = true ∨
        (name = rssname ∧ rssname ≠ "" ∧ ∃ v ∈ l, link = v.Link ∧ storable env v) := by
  induction l generalizing db with
  | nil => simp
  | cons v rest ih =>
    rw [List.foldl_cons, ih, record_contains]
    constructor
    · rintro ((h | ⟨h1, h2, h3, h4⟩) | ⟨h1, h2, w, hw, h3⟩)
      · exact Or.inl h
      · exact Or.inr ⟨h1, h3, v, List.mem_cons_self _ _, h2, h4⟩
      · exact Or.inr ⟨h1, h2, w, List.mem_cons_of_mem _ hw, h3⟩
    · rintro (h | ⟨h1, h2, w, hw, h3, h4⟩)
      · exact Or.inl (Or.inl h)
      · rcases List.mem_cons.mp hw with hw | hw
        · subst hw
          exact Or.inl (Or.inr ⟨h1, h3, h2, h4⟩)
        · exact Or.inr ⟨h1, h2, w, hw, h3, h4⟩

/-! ## The sending loop -/

theorem take_succ_drop_reverse (items : List Item) (n k : Nat) (v : Item) (hk : k ≤ n)
    (hn : n ≤ items.length) (hv : items[n]? = some v) :
    ((items.take (n + 1)).drop k).reverse = v :: ((items.take n).drop k).reverse := by
  have h1 : items.take (n + 1) = items.take n ++ [v] := by
    rw [List.take_succ]
    simp [hv]
  rw [h1, List.drop_append_of_le_length (by simp [hn]; exact hk)]
  simp

theorem sendLoop_spec (env : Env) (rssname : String) (items : List Item) :
    ∀ (n : Nat) (r0 : RunResult), n ≤ items.length → r0.aborted = none →
      ∃ k, k ≤ n ∧
        (sendLoop env rssname items n r0).sent.map Prod.fst
          = r0.sent.map Prod.fst ++ ((items.take n).drop k).reverse ∧
        (sendLoop env rssname items n r0).db
          = ((items.take n).drop k).reverse.foldl (record env rssname) r0.db ∧
        (∀ ws ∈ (sendLoop env rssname items n r0).sent, ws ∈ r0.sent ∨
          ∃ j, k ≤ j ∧ j < n ∧ items[j]? = some ws.1 ∧
            deliver env rssname j ws.1 = .ok ws.2) ∧
        (∀ j w, k ≤ j → j < n → items[j]? = some w →
          ∃ s, deliver env rssname j w = .ok s) ∧
        ((k = 0 ∧ (sendLoop env rssname items n r0).aborted = none) ∨
          (∃ i v p, k = i + 1 ∧ items[i]? = some v ∧
            deliver env rssname i v = .error p ∧
            (sendLoop env rssname items n r0).aborted = some p)) := by
  intro n
  induction n with
  | zero =>
    intro r0 _ h0
    refine ⟨0, Nat.le_refl _, ?_, ?_, ?_, ?_, Or.inl ⟨rfl, h0⟩⟩
    · simp [sendLoop]
    · simp [sendLoop]
    · intro ws hws
      exact Or.inl hws
    · intro j w _ hj
      omega
  | succ n ih =>
    intro r0 hn h0
    have hlt : n < items.length := by omega
    have hv : items[n]? = some (items.get ⟨n, hlt⟩) := List.getElem?_eq_getElem hlt
    generalize items.get ⟨n, hlt⟩ = v at hv
    cases hd : deliver env rssname n v with
    | error p =>
      have hres : sendLoop env rssname items (n + 1) r0 = { r0 with aborted := some p } := by
        simp [sendLoop, hv, hd]
      rw [hres]
      have hnil : (items.take (n + 1)).drop (n + 1) = [] :=
        List.drop_eq_nil_of_le (List.length_take_le _ _)
      refine ⟨n + 1, Nat.le_refl _, ?_, ?_, ?_, ?_, Or.inr ⟨n, v, p, rfl, hv, hd, rfl⟩⟩
      · simp [hnil]
      · simp [hnil]
      · intro ws hws
        exact Or.inl hws
      · intro j w h1 h2
        omega
    | ok s =>
      have hres : sendLoop env rssname items (n + 1) r0
          = sendLoop env rssname items n
              { db := record env rssname r0.db v, sent := r0.sent ++ [(v, s)],
                aborted := none } := by
        simp [sendLoop, hv, hd]
      rw [hres]
      obtain ⟨k, hk, hsent, hdb, hmsg, hok, hend⟩ :=
        ih { db := record env rssname r0.db v, sent := r0.sent ++ [(v, s)], aborted := none }
          (by omega) rfl
      have hrev := take_succ_drop_reverse items n k v hk (by omega) hv
      refine ⟨k, by omega, ?_, ?_, ?_, ?_, hend⟩
      · rw [hsent, hrev]
        simp
      · rw [hdb, hrev]
        rfl
      · intro ws hws
        rcases hmsg ws hws with h | ⟨j, h1, h2, h3, h4⟩
        · simp only [List.mem_append, List.mem_singleton] at h
          rcases h with h | h
          · exact Or.inl h
          · subst h
            exact Or.inr ⟨n, hk, by omega, hv, hd⟩
        · exact Or.inr ⟨j, h1, by omega, h3, h4⟩
      · intro j w h1 h2 h3
        by_cases hj : j = n
        · subst hj
          rw [hv] at h3
          cases h3
          exact ⟨s, hd⟩
        · exact hok j w h1 (by omega) h3

theorem deliver_ok (env : Env) (rssname : String) (i : Nat) (v : Item) (s : String)
    (h : deliver env rssname i v = .ok s) :
    env.NewBotAPI i = true ∧ env.Send i s = true ∧
      ∃ body, NormalizeHTMLforTelegram env (env.UnescapeString v.Description) = .ok body ∧
        s = messageText rssname v body := by
  unfold deliver at h
  by_cases hb : env.NewBotAPI i = true
  · simp only [hb, if_true] at h
    cases hn : NormalizeHTMLforTelegram env (env.UnescapeString v.Description) with
    | error p => simp [hn] at h
    | ok body =>
      simp only [hn] at h
      by_cases hs : env.Send i (messageText rssname v body) = true
      · simp only [hs, if_true] at h
        cases h
        exact ⟨hb, hs, body, rfl, rfl⟩
      · simp [hs] at h
  · simp [hb] at h

/-! ## Selection and delivery: the claims -/

theorem selected_wrap (l : List Item) :
    selected (if l.length > 0 then some ⟨l⟩ else none) = l := by
  cases l with
  | nil => rfl
  | cons x xs => simp [selected]

theorem ProcessRss_value (env : Env) (db : DB) (rss : Rss2) (rssname : String)
    (hname : rssname ≠ "") :
    ProcessRss env db rss rssname = .ok (ensureBucket db rssname,
      if (env.sortSort (ByPubDate.Less env)
          (rss.ItemList.filter (fun v => !db.contains rssname v.Link))).length > 0 then
        some ⟨env.sortSort (ByPubDate.Less env)
          (rss.ItemList.filter (fun v => !db.contains rssname v.Link))⟩
      else none) := by
  obtain ⟨b, hb, hkeys⟩ := ensureBucket_bucket db rssname hname
  unfold ProcessRss
  simp only [selectLoop_eq _ _ b hb, List.nil_append, filter_unseen_congr db rssname b hkeys]
  split <;> rfl

theorem filter_unseen_ensureBucket (db : DB) (rssname : String) (l : List Item) :
    l.filter (fun v => !(ensureBucket db rssname).contains rssname v.Link)
      = l.filter (fun v => !db.contains rssname v.Link) := by
  apply List.filter_congr
  intro v _
  rw [ensureBucket_contains]

/-- C1 (amended): for every raw entry list, store and feed name that is not
blank, `ProcessRss` returns a permutation of exactly the entries whose link
is not a key of the feed's bucket; no returned entry has a recorded link; the
call leaves the recorded links as they were, and repeating it on the store it
leaves gives the same result again. -/
theorem ProcessRss_selects_unseen (env : Env) (hsort : SortContract env.sortSort) (db : DB)
    (rss : Rss2) (rssname : String) (hname : rssname ≠ "") :
    ∃ r, ProcessRss env db rss rssname = .ok (ensureBucket db rssname, r) ∧
      (selected r).Perm (rss.ItemList.filter (fun v => !db.contains rssname v.Link)) ∧
      (∀ v ∈ selected r, v ∈ rss.ItemList ∧ db.contains rssname v.Link = false) ∧
      (∀ name link, (ensureBucket db rssname).contains name link = db.contains name link) ∧
      ProcessRss env (ensureBucket db rssname) rss rssname
        = .ok (ensureBucket db rssname, r) := by
  refine ⟨_, ProcessRss_value env db rss rssname hname, ?_, ?_, ?_, ?_⟩
  · rw [selected_wrap]
    exact hsort.perm _ _
  · intro v hv
    rw [selected_wrap] at hv
    have := (hsort.perm _ _).mem_iff.mp hv
    simpa using List.mem_filter.mp this
  · intro name link
    exact ensureBucket_contains db rssname name link
  · rw [ProcessRss_value env _ rss rssname hname, ensureBucket_idem,
      filter_unseen_ensureBucket]

/-- C1, a concrete run: with entry a recorded for feed Test, selection on
the entries a and b returns b alone. -/
theorem ProcessRss_selects_unseen_witness :
    ProcessRss sampleEnv storeWithA (mkRss [itemA, itemB]) "Test"
        = .ok (storeWithA, some ⟨[itemB]⟩) ∧
      ∃ r, ProcessRss sampleEnv storeWithA (mkRss [itemA, itemB]) "Test"
          = .ok (ensureBucket storeWithA "Test", r) ∧
        (selected r).Perm ((mkRss [itemA, itemB]).ItemList.filter
          (fun v => !storeWithA.contains "Test" v.Link)) ∧
        (∀ v ∈ selected r, v ∈ (mkRss [itemA, itemB]).ItemList ∧
          storeWithA.contains "Test" v.Link = false) ∧
        (∀ name link, (ensureBucket storeWithA "Test").contains name link
          = storeWithA.contains name link) ∧
        ProcessRss sampleEnv (ensureBucket storeWithA "Test") (mkRss [itemA, itemB]) "Test"
          = .ok (ensureBucket storeWithA "Test", r) :=
  ⟨rfl, ProcessRss_selects_unseen sampleEnv insertionSort_contract storeWithA
    (mkRss [itemA, itemB]) "Test" (by decide)⟩

/-- C1 as stated fails for the blank feed name: bolt refuses to create a
bucket without a name, the bucket looked up is nil and `b.Cursor()` panics,
so no entries are returned. -/
theorem ProcessRss_blank_feed_name_panics :
    ProcessRss sampleEnv ⟨[]⟩ (mkRss [itemA]) "" = .error .nilBucket := rfl

theorem SendAndWriteToDB_spec (env : Env) (db : DB) (send : SendItems) (rssname : String) :
    ∃ k, k ≤ send.ItemList.length ∧
      (SendAndWriteToDB env db send rssname).sent.map Prod.fst
        = (send.ItemList.drop k).reverse ∧
      (SendAndWriteToDB env db send rssname).db
        = (send.ItemList.drop k).reverse.foldl (record env rssname) db ∧
      (∀ ws ∈ (SendAndWriteToDB env db send rssname).sent,
        ∃ j, k ≤ j ∧ send.ItemList[j]? = some ws.1 ∧
          deliver env rssname j ws.1 = .ok ws.2) ∧
      (∀ j w, k ≤ j → send.ItemList[j]? = some w →
        ∃ s, deliver env rssname j w = .ok s) ∧
      ((k = 0 ∧ (SendAndWriteToDB env db send rssname).aborted = none) ∨
        (∃ i v p, k = i + 1 ∧ send.ItemList[i]? = some v ∧
          deliver env rssname i v = .error p ∧
          (SendAndWriteToDB env db send rssname).aborted = some p)) := by
  obtain ⟨k, hk, hsent, hdb, hmsg, hok, hend⟩ :=
    sendLoop_spec env rssname send.ItemList send.ItemList.length ⟨db, [], none⟩
      (Nat.le_refl _) rfl
  rw [List.take_length] at hsent hdb
  refine ⟨k, hk, ?_, hdb, ?_, ?_, hend⟩
  · simpa using hsent
  · intro ws hws
    rcases hmsg ws hws with h | ⟨j, h1, _, h3, h4⟩
    · simp at h
    · exact ⟨j, h1, h3, h4⟩
  · intro j w h1 h2
    have hj : j < send.ItemList.length := by
      by_contra hge
      rw [List.getElem?_eq_none (by omega)] at h2
      cases h2
    exact hok j w h1 hj h2

theorem getElem?_lt {l : List Item} {i : Nat} {v : Item} (h : l[i]? = some v) :
    i < l.length := by
  by_contra hge
  rw [List.getElem?_eq_none (by omega)] at h
  cases h

theorem SendAndWriteToDB_complete (env : Env) (db : DB) (send : SendItems) (rssname : String)
    (hrun : (SendAndWriteToDB env db send rssname).aborted = none) :
    (SendAndWriteToDB env db send rssname).sent.map Prod.fst = send.ItemList.reverse ∧
      (SendAndWriteToDB env db send rssname).db
        = send.ItemList.reverse.foldl (record env rssname) db ∧
      (∀ ws ∈ (SendAndWriteToDB env db send rssname).sent,
        ∃ j, send.ItemList[j]? = some ws.1 ∧ deliver env rssname j ws.1 = .ok ws.2) := by
  obtain ⟨k, hk, hsent, hdb, hmsg, hok, hend⟩ := SendAndWriteToDB_spec env db send rssname
  have hk0 : k = 0 := by
    rcases hend with ⟨h0, _⟩ | ⟨i', v', p', h1, h2, h3, h4⟩
    · exact h0
    · rw [hrun] at h4
      cases h4
  subst hk0
  refine ⟨by simpa using hsent, by simpa using hdb, ?_⟩
  intro ws hws
  obtain ⟨j, _, h2, h3⟩ := hmsg ws hws
  exact ⟨j, h2, h3⟩

theorem SendAndWriteToDB_all_ok (env : Env) (db : DB) (send : SendItems) (rssname : String)
    (hall : ∀ i v, send.ItemList[i]? = some v → ∃ s, deliver env rssname i v = .ok s) :
    (SendAndWriteToDB env db send rssname).aborted = none := by
  obtain ⟨k, hk, hsent, hdb, hmsg, hok, hend⟩ := SendAndWriteToDB_spec env db send rssname
  rcases hend with ⟨_, h⟩ | ⟨i', v', p', h1, h2, h3, h4⟩
  · exact h
  · obtain ⟨s, hs⟩ := hall i' v' h2
    rw [hs] at h3
    cases h3

theorem mainFeed_eq (env : Env) (db : DB) (rss : Rss2) (rssname : String)
    (hname : rssname ≠ "") :
    mainFeed env db rss rssname
      = SendAndWriteToDB env (ensureBucket db rssname)
          ⟨env.sortSort (ByPubDate.Less env)
            (rss.ItemList.filter (fun v => !db.contains rssname v.Link))⟩ rssname := by
  unfold mainFeed
  rw [ProcessRss_value env db rss rssname hname]
  generalize env.sortSort (ByPubDate.Less env)
    (rss.ItemList.filter (fun v => !db.contains rssname v.Link)) = l
  cases l with
  | nil => rfl
  | cons x xs => simp

theorem hasBucket_record (env : Env) (rssname : String) (db : DB) (v : Item)
    (h : (findBucket rssname db.buckets).isSome = true) :
    (findBucket rssname (record env rssname db v).buckets).isSome = true := by
  by_cases hname : rssname = ""
  · subst hname
    rw [record_eq_self_of_blank]
    exact h
  · by_cases hs : storable env v
    · obtain ⟨old, _, heq⟩ := record_eq env rssname db v hname hs
      rw [heq]
      simp [findBucket_setBucket_same]
    · rw [record_eq_self_of_not_storable env rssname db v hs]
      exact h

theorem hasBucket_foldl_record (env : Env) (rssname : String) (l : List Item) (db : DB)
    (h : (findBucket rssname db.buckets).isSome = true) :
    (findBucket rssname (l.foldl (record env rssname) db).buckets).isSome = true := by
  induction l generalizing db with
  | nil => exact h
  | cons v rest ih => exact ih _ (hasBucket_record env rssname db v h)

theorem hasBucket_ensureBucket (db : DB) (rssname : String) (hname : rssname ≠ "") :
    (findBucket rssname (ensureBucket db rssname).buckets).isSome = true := by
  have hz := size_ne_zero hname
  unfold ensureBucket DB.Update DB.CreateBucketIfNotExists
  simp only [hz, if_false]
  cases hf : findBucket rssname db.buckets with
  | some b => simp [hf]
  | none => simp [findBucket_setBucket_same]

theorem ensureBucket_of_hasBucket (db : DB) (rssname : String)
    (h : (findBucket rssname db.buckets).isSome = true) : ensureBucket db rssname = db := by
  unfold ensureBucket DB.Update DB.CreateBucketIfNotExists
  by_cases hz : rssname.utf8ByteSize = 0
  · simp [hz]
  · cases hf : findBucket rssname db.buckets with
    | some b => simp [hz, hf]
    | none => simp [hf] at h

/-- C3 (amended): for a feed name that is not blank and a raw list whose
entries all have a link and a snapshot bolt accepts as key and value, after
selection and a complete run of the orchestrator the store contains the link
of every delivered entry, the delivered entries are the selected ones last
first, and a second selection on the same raw list returns nil. -/
theorem mainFeed_then_nothing_to_select (env : Env) (hsort : SortContract env.sortSort)
    (db : DB) (rss : Rss2) (rssname : String) (hname : rssname ≠ "")
    (hstor : ∀ v ∈ rss.ItemList, storable env v)
    (hrun : (mainFeed env db rss rssname).aborted = none) :
    (∀ ws ∈ (mainFeed env db rss rssname).sent,
      (mainFeed env db rss rssname).db.contains rssname ws.1.Link = true) ∧
    (∃ r, ProcessRss env db rss rssname = .ok (ensureBucket db rssname, r) ∧
      (mainFeed env db rss rssname).sent.map Prod.fst = (selected r).reverse) ∧
    ProcessRss env (mainFeed env db rss rssname).db rss rssname
      = .ok ((mainFeed env db rss rssname).db, none) := by
  have hmain := mainFeed_eq env db rss rssname hname
  have hval := ProcessRss_value env db rss rssname hname
  rw [hmain] at hrun ⊢
  obtain ⟨hsent, hdb, _⟩ := SendAndWriteToDB_complete env _ _ rssname hrun
  have hperm := hsort.perm (ByPubDate.Less env)
    (rss.ItemList.filter (fun v => !db.contains rssname v.Link))
  generalize env.sortSort (ByPubDate.Less env)
    (rss.ItemList.filter (fun v => !db.contains rssname v.Link)) = sel at *
  generalize SendAndWriteToDB env (ensureBucket db rssname) ⟨sel⟩ rssname = res at *
  simp only at hsent hdb
  have hrec : ∀ v ∈ sel, res.db.contains rssname v.Link = true := by
    intro v hv
    rw [hdb, foldl_record_contains]
    have hvr : v ∈ rss.ItemList := (List.mem_filter.mp (hperm.mem_iff.mp hv)).1
    exact Or.inr ⟨rfl, hname, v, List.mem_reverse.mpr hv, rfl, hstor v hvr⟩
  have hall : ∀ v ∈ rss.ItemList, res.db.contains rssname v.Link = true := by
    intro v hv
    cases hc : db.contains rssname v.Link with
    | true =>
      rw [hdb, foldl_record_contains, ensureBucket_contains]
      exact Or.inl hc
    | false =>
      apply hrec
      apply hperm.mem_iff.mpr
      exact List.mem_filter.mpr ⟨hv, by simp [hc]⟩
  refine ⟨?_, ⟨_, hval, ?_⟩, ?_⟩
  · intro ws hws
    apply hrec
    have : ws.1 ∈ res.sent.map Prod.fst := List.mem_map_of_mem _ hws
    rw [hsent] at this
    exact List.mem_reverse.mp this
  · rw [selected_wrap]
    exact hsent
  · have hfil : rss.ItemList.filter (fun v => !res.db.contains rssname v.Link) = [] := by
      apply List.filter_eq_nil_iff.mpr
      intro v hv
      simp [hall v hv]
    have hsorted : env.sortSort (ByPubDate.Less env) [] = [] :=
      List.Perm.eq_nil (hsort.perm _ _)
    have hbucket : ensureBucket res.db rssname = res.db := by
      apply ensureBucket_of_hasBucket
      rw [hdb]
      exact hasBucket_foldl_record env rssname _ _ (hasBucket_ensureBucket db rssname hname)
    rw [ProcessRss_value env res.db rss rssname hname, hfil, hsorted, hbucket]
    rfl

theorem storable_sample (link pubDate description : String) (h1 : link ≠ "")
    (h2 : link.utf8ByteSize ≤ MaxKeySize)
    (h3 : (sampleMarshal (mkItem link pubDate description)).utf8ByteSize ≤ MaxValueSize) :
    storable sampleEnv (mkItem link pubDate description) :=
  ⟨h1, h2, h3⟩

set_option maxRecDepth 100000 in
/-- C3, the scenario of the specification: feed Test, empty store, entries a
and b.  Both are delivered, b first; afterwards both links are contained and
a second selection returns nil. -/
theorem mainFeed_then_nothing_to_select_witness :
    (mainFeed sampleEnv ⟨[]⟩ (mkRss [itemA, itemB]) "Test").sent.map Prod.fst
        = [itemB, itemA] ∧
      (mainFeed sampleEnv ⟨[]⟩ (mkRss [itemA, itemB]) "Test").db.contains "Test" "a" = true ∧
      (mainFeed sampleEnv ⟨[]⟩ (mkRss [itemA, itemB]) "Test").db.contains "Test" "b" = true ∧
      ProcessRss sampleEnv (mainFeed sampleEnv ⟨[]⟩ (mkRss [itemA, itemB]) "Test").db
          (mkRss [itemA, itemB]) "Test"
        = .ok ((mainFeed sampleEnv ⟨[]⟩ (mkRss [itemA, itemB]) "Test").db, none) :=
  ⟨rfl, rfl, rfl,
    (mainFeed_then_nothing_to_select sampleEnv insertionSort_contract ⟨[]⟩
      (mkRss [itemA, itemB]) "Test" (by decide)
      (by
        intro v hv
        simp only [mkRss, List.mem_cons, List.mem_singleton, List.mem_nil_iff, or_false] at hv
        rcases hv with hv | hv
        · subst hv
          exact storable_sample _ _ _ (by decide) (by decide) (by decide)
        · subst hv
          exact storable_sample _ _ _ (by decide) (by decide) (by decide))
      rfl).2.2⟩

set_option maxRecDepth 100000 in
/-- C3 as stated fails for an entry without a link: bolt rejects the blank
key, the error of `db.Update` is dropped, so after a complete run the link
is not contained and a second selection returns the entry again. -/
theorem mainFeed_blank_link_selected_again :
    (mainFeed sampleEnv ⟨[]⟩ (mkRss [itemNoLink]) "Test").aborted = none ∧
      (mainFeed sampleEnv ⟨[]⟩ (mkRss [itemNoLink]) "Test").sent.map Prod.fst
        = [itemNoLink] ∧
      (mainFeed sampleEnv ⟨[]⟩ (mkRss [itemNoLink]) "Test").db.contains "Test"
        itemNoLink.Link = false ∧
      ProcessRss sampleEnv (mainFeed sampleEnv ⟨[]⟩ (mkRss [itemNoLink]) "Test").db
          (mkRss [itemNoLink]) "Test"
        = .ok ((mainFeed sampleEnv ⟨[]⟩ (mkRss [itemNoLink]) "Test").db,
            some ⟨[itemNoLink]⟩) :=
  ⟨rfl, rfl, rfl, rfl⟩

theorem ProcessRss_selected (env : Env) (db db1 : DB) (rss : Rss2) (rssname : String)
    (r : Option SendItems) (h : ProcessRss env db rss rssname = .ok (db1, r)) :
    ∃ l, selected r = env.sortSort (ByPubDate.Less env) l := by
  unfold ProcessRss at h
  cases hs : selectLoop (ensureBucket db rssname) rssname rss.ItemList [] with
  | error p => simp [hs] at h
  | ok items =>
    simp only [hs] at h
    refine ⟨items, ?_⟩
    split at h
    · cases h
      rfl
    · rename_i hlen
      cases h
      have : (env.sortSort (ByPubDate.Less env) items).length = 0 := by omega
      simp [selected, List.length_eq_zero.mp this]

theorem sortSort_newest_first (env : Env) (hsort : SortContract env.sortSort) (l : List Item) :
    (env.sortSort (ByPubDate.Less env) l).Pairwise
      (fun a b => pubDateUnix env a.PubDate ≥ pubDateUnix env b.PubDate) := by
  refine (hsort.sorted _ l (ByPubDate.strictWeakOrder env)).imp ?_
  intro a b hab
  simp only [ByPubDate.Less, decide_eq_false_iff_not] at hab
  omega

theorem eq_of_perm_of_strict (key : Item → Int) :
    ∀ (l2 l1 : List Item), l1.Perm l2 →
      l1.Pairwise (fun a b => key a ≥ key b) → l2.Pairwise (fun a b => key a > key b) →
      l1 = l2 := by
  intro l2
  induction l2 with
  | nil =>
    intro l1 hp _ _
    exact hp.eq_nil
  | cons x xs ih =>
    intro l1 hp h1 h2
    cases l1 with
    | nil => exact absurd hp.symm.eq_nil (by simp)
    | cons y ys =>
      rw [List.pairwise_cons] at h1 h2
      have hy : y ∈ x :: xs := hp.mem_iff.mp (List.mem_cons_self _ _)
      have hx : x ∈ y :: ys := hp.mem_iff.mpr (List.mem_cons_self _ _)
      have hxy : y = x := by
        rcases List.mem_cons.mp hy with hy | hy
        · exact hy
        · rcases List.mem_cons.mp hx with hx | hx
          · exact hx.symm
          · have a1 := h1.1 x hx
            have a2 := h2.1 y hy
            omega
      subst hxy
      rw [ih ys (List.Perm.cons_inv hp) h1.2 h2.2]

/-- C4 (amended): for a feed name that is not blank `ProcessRss` returns,
whatever the timestamps, the unseen entries ordered by Unix time descending,
a timestamp that does not parse counting as Go's zero time (0001-01-01
00:00:00 UTC): no entry whose timestamp parses to an instant after the zero
time stands behind one whose timestamp does not parse, and unseen entries
with parsed timestamps T1 > T2 > T3 after the zero time and one that does not
parse come out as T1, T2, T3, T_bad. -/
theorem ProcessRss_newest_first (env : Env) (hsort : SortContract env.sortSort) (db : DB)
    (rss : Rss2) (rssname : String) (hname : rssname ≠ "") :
    ∃ r, ProcessRss env db rss rssname = .ok (ensureBucket db rssname, r) ∧
      (selected r).Pairwise
        (fun a b => pubDateUnix env a.PubDate ≥ pubDateUnix env b.PubDate) ∧
      (selected r).Pairwise
        (fun a b => env.timeParseUnix pubDateLayout a.PubDate = none →
          ∀ t, env.timeParseUnix pubDateLayout b.PubDate = some t → t ≤ zeroTimeUnix) ∧
      (∀ e1 e2 e3 eb t1 t2 t3,
        env.timeParseUnix pubDateLayout e1.PubDate = some t1 →
        env.timeParseUnix pubDateLayout e2.PubDate = some t2 →
        env.timeParseUnix pubDateLayout e3.PubDate = some t3 →
        env.timeParseUnix pubDateLayout eb.PubDate = none →
        t1 > t2 → t2 > t3 → t3 > zeroTimeUnix →
        (rss.ItemList.filter (fun v => !db.contains rssname v.Link)).Perm [e1, e2, e3, eb] →
        selected r = [e1, e2, e3, eb]) := by
  refine ⟨_, ProcessRss_value env db rss rssname hname, ?_, ?_, ?_⟩
  · rw [selected_wrap]
    exact sortSort_newest_first env hsort _
  · rw [selected_wrap]
    refine (sortSort_newest_first env hsort _).imp ?_
    intro a b hab ha t hb
    simp only [pubDateUnix, ha, hb] at hab
    exact hab
  · intro e1 e2 e3 eb t1 t2 t3 h1 h2 h3 hb h12 h23 h3z hperm
    rw [selected_wrap]
    apply eq_of_perm_of_strict (fun v => pubDateUnix env v.PubDate)
    · exact (hsort.perm _ _).trans hperm
    · exact sortSort_newest_first env hsort _
    · have k1 : pubDateUnix env e1.PubDate = t1 := by simp [pubDateUnix, h1]
      have k2 : pubDateUnix env e2.PubDate = t2 := by simp [pubDateUnix, h2]
      have k3 : pubDateUnix env e3.PubDate = t3 := by simp [pubDateUnix, h3]
      have kb : pubDateUnix env eb.PubDate = zeroTimeUnix := by simp [pubDateUnix, hb]
      simp only [List.pairwise_cons, List.mem_cons, List.mem_singleton, List.not_mem_nil,
        or_false, forall_eq_or_imp, forall_eq, k1, k2, k3, kb, List.Pairwise.nil, and_true,
        false_implies, implies_true]
      omega

set_option maxRecDepth 100000 in
/-- C4, a concrete run: the entries a (10:00), b (09:00), c (08:00) and one
whose date does not parse, handed in in the opposite order, come out as a, b,
c, bad. -/
theorem ProcessRss_newest_first_witness :
    ProcessRss sampleEnv ⟨[]⟩ (mkRss [itemBadDate, itemC, itemB, itemA]) "Test"
        = .ok (⟨[("Test", ⟨[]⟩)]⟩, some ⟨[itemA, itemB, itemC, itemBadDate]⟩) ∧
      ∃ r, ProcessRss sampleEnv ⟨[]⟩ (mkRss [itemBadDate, itemC, itemB, itemA]) "Test"
          = .ok (ensureBucket ⟨[]⟩ "Test", r) ∧
        selected r = [itemA, itemB, itemC, itemBadDate] := by
  refine ⟨rfl, ?_⟩
  obtain ⟨r, h1, _, _, h4⟩ := ProcessRss_newest_first sampleEnv insertionSort_contract ⟨[]⟩
    (mkRss [itemBadDate, itemC, itemB, itemA]) "Test" (by decide)
  exact ⟨r, h1, h4 itemA itemB itemC itemBadDate 1704103200 1704099600 1704096000
    rfl rfl rfl rfl (by decide) (by decide) (by decide)
    (List.reverse_perm [itemA, itemB, itemC, itemBadDate])⟩

set_option maxRecDepth 100000 in
/-- C4 as stated fails for a timestamp that parses to an instant before
Go's zero time: the entry dated 0001-01-01 00:00:00 +0100 parses and is
returned behind the entry whose date does not parse. -/
theorem ProcessRss_unparsed_before_ancient :
    sampleEnv.timeParseUnix pubDateLayout itemAncient.PubDate = some (-62135600400) ∧
      sampleEnv.timeParseUnix pubDateLayout itemBadDate.PubDate = none ∧
      ProcessRss sampleEnv ⟨[]⟩ (mkRss [itemAncient, itemBadDate]) "Test"
        = .ok (⟨[("Test", ⟨[]⟩)]⟩, some ⟨[itemBadDate, itemAncient]⟩) :=
  ⟨rfl, rfl, rfl⟩

/-- C5: when the delivery of every entry of the list succeeds, the run
completes, the entries are sent in exactly the reverse of the order of the
list, one message each, built from the entry by the fixed template; and when
the list is what `ProcessRss` returned, that order is ascending by
publication time. -/
theorem SendAndWriteToDB_reverse_order (env : Env) (db : DB) (send : SendItems)
    (rssname : String)
    (hall : ∀ i v, send.ItemList[i]? = some v → ∃ s, deliver env rssname i v = .ok s) :
    (SendAndWriteToDB env db send rssname).aborted = none ∧
      (SendAndWriteToDB env db send rssname).sent.map Prod.fst = send.ItemList.reverse ∧
      (∀ ws ∈ (SendAndWriteToDB env db send rssname).sent,
        ∃ body, NormalizeHTMLforTelegram env (env.UnescapeString ws.1.Description) = .ok body ∧
          ws.2 = messageText rssname ws.1 body) ∧
      (∀ db0 rss, SortContract env.sortSort →
        ProcessRss env db0 rss rssname = .ok (db, some send) →
        ((SendAndWriteToDB env db send rssname).sent.map Prod.fst).Pairwise
          (fun a b => pubDateUnix env a.PubDate ≤ pubDateUnix env b.PubDate)) := by
  have hrun := SendAndWriteToDB_all_ok env db send rssname hall
  obtain ⟨hsent, _, hmsg⟩ := SendAndWriteToDB_complete env db send rssname hrun
  refine ⟨hrun, hsent, ?_, ?_⟩
  · intro ws hws
    obtain ⟨j, _, hd⟩ := hmsg ws hws
    exact (deliver_ok env rssname j ws.1 ws.2 hd).2.2
  · intro db0 rss hsort hsel
    obtain ⟨l, hl⟩ := ProcessRss_selected env db0 db rss rssname (some send) hsel
    rw [hsent, List.pairwise_reverse]
    have : send.ItemList = env.sortSort (ByPubDate.Less env) l := hl
    rw [this]
    exact (sortSort_newest_first env hsort l).imp (fun h => h)

set_option maxRecDepth 100000 in
/-- C5, the scenario of the specification: `ProcessRss` returns a, b and the
messages go out for b, then a. -/
theorem SendAndWriteToDB_reverse_order_witness :
    ProcessRss sampleEnv ⟨[]⟩ (mkRss [itemA, itemB]) "Test"
        = .ok (⟨[("Test", ⟨[]⟩)]⟩, some ⟨[itemA, itemB]⟩) ∧
      (SendAndWriteToDB sampleEnv ⟨[("Test", ⟨[]⟩)]⟩ ⟨[itemA, itemB]⟩ "Test").sent
        = [(itemB, "<i>Test</i>\n\n<b>title</b>\n\nsecond\n\nb"),
           (itemA, "<i>Test</i>\n\n<b>title</b>\n\nfirst\n\na")] ∧
      (SendAndWriteToDB sampleEnv ⟨[("Test", ⟨[]⟩)]⟩ ⟨[itemA, itemB]⟩ "Test").sent.map Prod.fst
        = ([itemA, itemB] : List Item).reverse :=
  ⟨rfl, rfl,
    (SendAndWriteToDB_reverse_order sampleEnv ⟨[("Test", ⟨[]⟩)]⟩ ⟨[itemA, itemB]⟩ "Test"
      (by
        intro i v hv
        have hlen := getElem?_lt hv
        simp only [List.length_cons, List.length_nil] at hlen
        have hi : i = 0 ∨ i = 1 := by omega
        rcases hi with hi | hi
        · subst hi
          cases hv
          exact ⟨_, rfl⟩
        · subst hi
          cases hv
          exact ⟨_, rfl⟩)).2.1⟩

/-! ## Markup normalisation: the loop -/

theorem in_array_eq (d : String) (l : List String) : in_array d l = decide (d ∈ l) := by
  induction l with
  | nil => simp [in_array]
  | cons x rest ih =>
    by_cases h : d = x
    · simp [in_array, h]
    · simp [in_array, h, ih]

theorem in_array_tags (d : String) :
    in_array d tags = true ↔
      d = "br" ∨ d = "img" ∨ d = "b" ∨ d = "strong" ∨ d = "i" ∨ d = "em" ∨ d = "code" ∨
        d = "s" ∨ d = "strike" ∨ d = "del" ∨ d = "u" ∨ d = "pre" := by
  rw [in_array_eq]
  simp [tags]

theorem in_array_tags_size (d : String) (h : in_array d tags = true) :
    d.utf8ByteSize ≤ 6 := by
  rcases (in_array_tags d).mp h with h | h | h | h | h | h | h | h | h | h | h | h <;>
    subst h <;> decide

theorem truncationSuffix_size (prev : Token) : (truncationSuffix prev).utf8ByteSize ≤ 13 := by
  unfold truncationSuffix
  split
  · rename_i h
    simp only [Bool.and_eq_true] at h
    have := in_array_tags_size prev.Data h.1.1
    simp only [size_append]
    have h1 : ("</" : String).utf8ByteSize = 2 := rfl
    have h2 : ("> ..." : String).utf8ByteSize = 5 := rfl
    omega
  · decide

theorem truncationSuffix_eq (prev : Token) :
    truncationSuffix prev
      = if in_array prev.Data tags = true ∧ prev.Data ≠ "img" ∧ prev.Data ≠ "br" then
          "</" ++ prev.Data ++ "> ..."
        else " ..." := by
  unfold truncationSuffix
  by_cases h1 : in_array prev.Data tags = true <;> by_cases h2 : prev.Data = "img" <;>
    by_cases h3 : prev.Data = "br" <;> simp [h1, h2, h3]

theorem iteration_long (env : Env) (s : NormState) (tt : Token)
    (h : s.out.utf8ByteSize > 2500) :
    iteration env s tt = .ret (s.out ++ truncationSuffix s.previousStartTokenTest) := by
  simp [iteration, h]

theorem iteration_errorToken (env : Env) (s : NormState) :
    iteration env s errorToken
      = if s.out.utf8ByteSize > 2500 then
          .ret (s.out ++ truncationSuffix s.previousStartTokenTest)
        else .ret s.out := by
  simp [iteration, errorToken]

theorem normalizeLoop_long (env : Env) (s : NormState) (toks : List Token)
    (h : s.out.utf8ByteSize > 2500) :
    normalizeLoop env s toks = .ok (s.out ++ truncationSuffix s.previousStartTokenTest) := by
  cases toks with
  | nil => simp [normalizeLoop, iteration_long env s _ h]
  | cons tt rest => simp [normalizeLoop, iteration_long env s _ h]

theorem normalizeLoop_nil (env : Env) (s : NormState) :
    normalizeLoop env s []
      = if s.out.utf8ByteSize > 2500 then
          .ok (s.out ++ truncationSuffix s.previousStartTokenTest)
        else .ok s.out := by
  unfold normalizeLoop
  rw [iteration_errorToken]
  by_cases h : s.out.utf8ByteSize > 2500
  · simp [h]
  · simp [h]

theorem iteration_next_short (env : Env) (s s' : NormState) (tt : Token)
    (h : iteration env s tt = .next s') : s.out.utf8ByteSize ≤ 2500 := by
  by_contra hlong
  rw [iteration_long env s tt (by omega)] at h
  cases h

theorem iteration_growsBy (env : Env) (s : NormState) (tt : Token) :
    GrowsBy s (pieceSize env tt) (iteration env s tt) := by
  have hnl : ("\n" : String).utf8ByteSize = 1 := rfl
  have hsp : (" " : String).utf8ByteSize = 1 := rfl
  have hlt : (" <" : String).utf8ByteSize = 2 := rfl
  have hgt : (">" : String).utf8ByteSize = 1 := rfl
  have hcl : ("</" : String).utf8ByteSize = 2 := rfl
  have hgs : ("> " : String).utf8ByteSize = 2 := rfl
  have hsz := in_array_tags_size tt.Data
  have himg3 : ("img" : String).utf8ByteSize = 3 := rfl
  unfold iteration
  dsimp only
  split
  · trivial
  · split
    · trivial
    · rename_i hty
      split
      · rename_i hin
        have hsz' := hsz hin
        split
        · simp only [GrowsBy, size_append, hnl, pieceSize, hty]
          split <;> [(split <;> omega); omega]
        · split
          · rename_i himg
            split
            · trivial
            · rename_i a rest hattr
              split
              · rename_i hsrc
                simp [GrowsBy, size_append, hsp, pieceSize, hty, hattr, himg, hsrc]
              · rename_i hsrc
                simp only [GrowsBy, size_append, hlt, hgt, pieceSize, hty, hattr, himg, hsrc,
                  and_false, if_false]
                omega
          · rename_i himg
            simp only [GrowsBy, size_append, hlt, hgt, pieceSize, hty]
            split
            · simp only [himg, false_and, if_false]
              omega
            · omega
      · simp only [GrowsBy, pieceSize, hty]
        split <;> [(split <;> omega); omega]
    · rename_i hty
      split
      · rename_i hin
        have hsz' := hsz hin
        simp only [GrowsBy, size_append, hcl, hgs, pieceSize, hty]
        omega
      · simp only [GrowsBy, pieceSize, hty]
        omega
    · rename_i hty
      split
      · split
        · simp only [GrowsBy, size_append, hnl, pieceSize, hty]
          omega
        · simp only [GrowsBy, pieceSize, hty]
          omega
      · simp only [GrowsBy, pieceSize, hty]
        omega
    · rename_i hty
      split
      · simp only [GrowsBy, pieceSize, hty]
        omega
      · split
        · simp only [GrowsBy, size_append, pieceSize, hty]
          omega
        · simp only [GrowsBy, pieceSize, hty]
          omega
    · rename_i hty
      simp only [GrowsBy, pieceSize, hty]
      omega
    · rename_i hty
      simp only [GrowsBy, pieceSize, hty]
      omega

theorem iteration_growth (env : Env) (s s' : NormState) (tt : Token)
    (h : iteration env s tt = .next s') :
    s'.out.utf8ByteSize ≤ s.out.utf8ByteSize + pieceSize env tt := by
  have := iteration_growsBy env s tt
  rw [h] at this
  exact this

theorem iteration_returnsWithin (env : Env) (s : NormState) (tt : Token) :
    ReturnsWithin s (iteration env s tt) := by
  have := truncationSuffix_size s.previousStartTokenTest
  unfold iteration
  dsimp only
  split
  · simp only [ReturnsWithin, size_append]
    omega
  · split
    · simp only [ReturnsWithin]
      omega
    all_goals (repeat' split) <;> trivial

theorem iteration_ret_size (env : Env) (s : NormState) (tt : Token) (out : String)
    (h : iteration env s tt = .ret out) : out.utf8ByteSize ≤ s.out.utf8ByteSize + 13 := by
  have := iteration_returnsWithin env s tt
  rw [h] at this
  exact this

theorem normalizeLoop_size (env : Env) (k : Nat) :
    ∀ (toks : List Token) (s : NormState) (out : String),
      (∀ tt ∈ toks, pieceSize env tt ≤ k) → s.out.utf8ByteSize ≤ 2500 + k →
      normalizeLoop env s toks = .ok out → out.utf8ByteSize ≤ 2500 + k + 13 := by
  intro toks
  induction toks with
  | nil =>
    intro s out _ hs h
    rw [normalizeLoop_nil] at h
    split at h
    · cases h
      have := truncationSuffix_size s.previousStartTokenTest
      simp only [size_append]
      omega
    · cases h
      omega
  | cons tt rest ih =>
    intro s out hk hs h
    unfold normalizeLoop at h
    cases hit : iteration env s tt with
    | next s' =>
      simp only [hit] at h
      have h1 := iteration_growth env s s' tt hit
      have h2 := iteration_next_short env s s' tt hit
      have h3 := hk tt (List.mem_cons_self _ _)
      exact ih s' out (fun t ht => hk t (List.mem_cons_of_mem _ ht)) (by omega) h
    | ret o =>
      simp only [hit] at h
      cases h
      have := iteration_ret_size env s tt _ hit
      omega
    | crash p => simp [hit] at h

/-! ## Markup normalisation: the claims -/

theorem size_letters (n : Nat) : (letters n).utf8ByteSize = n := by
  unfold letters
  rw [String.utf8ByteSize_mk]
  induction n with
  | zero => rfl
  | succ n ih =>
    rw [List.replicate_succ, String.utf8Len_cons, ih]
    rfl

theorem TrimSpace_letters (n : Nat) : TrimSpace (letters n) = letters n := by
  have hdrop : ∀ m, (List.replicate m 'a').dropWhile isSpace = List.replicate m 'a' := by
    intro m
    cases m with
    | zero => rfl
    | succ m =>
      rw [List.replicate_succ, List.dropWhile_cons]
      have : isSpace 'a' = false := by decide
      simp [this]
  unfold TrimSpace letters
  simp only [hdrop, List.reverse_replicate]

theorem iteration_text_letters (s : NormState) (n : Nat) (hs : s.out.utf8ByteSize ≤ 2500)
    (hsc : s.previousStartTokenTest.Data ≠ "script") :
    iteration sampleEnv s (textTok (letters n))
      = .next ⟨s.out ++ letters n, s.previousStartTokenTest⟩ := by
  have hs' : ¬ s.out.utf8ByteSize > 2500 := by omega
  have hu : sampleEnv.UnescapeString (letters n) = letters n := rfl
  unfold iteration
  simp only [hs', if_false, textTok, hsc, hu, TrimSpace_letters]
  split
  · rfl
  · rename_i hz
    have : letters n = "" := by
      apply (size_eq_zero _).mp
      omega
    rw [this, String.append_empty]

theorem normalizeLoop_next (env : Env) (s s' : NormState) (tt : Token) (rest : List Token)
    (h : iteration env s tt = .next s') :
    normalizeLoop env s (tt :: rest) = normalizeLoop env s' rest := by
  rw [normalizeLoop, h]

theorem passes_normalizeLoop (env : Env) (post : List Token) :
    ∀ (pre : List Token) (s0 s : NormState), passes env s0 pre = some s →
      normalizeLoop env s0 (pre ++ post) = normalizeLoop env s post := by
  intro pre
  induction pre with
  | nil =>
    intro s0 s h
    simp only [passes, Option.some.injEq] at h
    subst h
    rfl
  | cons tt rest ih =>
    intro s0 s h
    unfold passes at h
    cases hit : iteration env s0 tt with
    | next s' =>
      simp only [hit] at h
      rw [List.cons_append, normalizeLoop, hit]
      exact ih s' s h
    | ret o => simp [hit] at h
    | crash p => simp [hit] at h

theorem passes_snoc (env : Env) (pre : List Token) (tt : Token) (s0 s s' : NormState)
    (h : passes env s0 pre = some s) (hit : iteration env s tt = .next s') :
    passes env s0 (pre ++ [tt]) = some s' := by
  induction pre generalizing s0 with
  | nil =>
    simp only [passes, Option.some.injEq] at h
    subst h
    simp [passes, hit]
  | cons t rest ih =>
    unfold passes at h
    cases hi : iteration env s0 t with
    | next s1 =>
      simp only [hi] at h
      rw [List.cons_append, passes, hi]
      exact ih s1 h
    | ret o => simp [hi] at h
    | crash p => simp [hi] at h

/-- C6 (amended): the output is at most 2500 bytes, plus the most a single
pass appends for one token of the input (`k`: a marker is at most 10 bytes, a
text token gives its trimmed unescaped text, an image start tag the value of
its src attribute and a space), plus the 13 bytes of the longest suffix. -/
theorem NormalizeTokens_length_bound (env : Env) (toks : List Token) (k : Nat) (out : String)
    (hk : ∀ tt ∈ toks, pieceSize env tt ≤ k)
    (h : NormalizeTokens env toks = .ok out) :
    out.utf8ByteSize ≤ 2500 + k + 13 :=
  normalizeLoop_size env k toks ⟨"", errorToken⟩ out hk (Nat.zero_le _) h

/-- C6, a concrete run: a bold word; no pass appends more than 10 bytes. -/
theorem NormalizeTokens_length_bound_witness :
    NormalizeTokens sampleEnv [startTag "b" [], textTok "news", endTag "b"]
        = .ok " <b>news</b> " ∧
      (" <b>news</b> " : String).utf8ByteSize ≤ 2500 + 10 + 13 :=
  ⟨rfl, NormalizeTokens_length_bound sampleEnv [startTag "b" [], textTok "news", endTag "b"] 10
    " <b>news</b> "
    (by
      intro tt htt
      simp only [List.mem_cons, List.mem_singleton, List.mem_nil_iff, or_false] at htt
      rcases htt with h | h | h <;> subst h <;> decide)
    rfl⟩

/-- C6 as stated fails for a long text: a fragment of 3000 letters is one
text token, it is appended whole, and the output has 3004 bytes, more than
2500 plus the 13 bytes of the longest suffix. -/
theorem NormalizeTokens_long_text_exceeds_bound :
    NormalizeTokens sampleEnv [textTok (letters 3000)] = .ok ("" ++ letters 3000 ++ " ...") ∧
      ("" ++ letters 3000 ++ " ...").utf8ByteSize = 3004 ∧
      ("</strong> ..." : String).utf8ByteSize = 13 := by
  have h1 : iteration sampleEnv ⟨"", errorToken⟩ (textTok (letters 3000))
      = .next ⟨"" ++ letters 3000, errorToken⟩ :=
    iteration_text_letters ⟨"", errorToken⟩ 3000 (by decide) (by decide)
  have hsize : ("" ++ letters 3000).utf8ByteSize = 3000 := by
    rw [size_append, size_letters]
    rfl
  refine ⟨?_, ?_, rfl⟩
  · unfold NormalizeTokens
    rw [normalizeLoop_next _ _ _ _ _ h1, normalizeLoop_long _ _ _ (by simp only [hsize]; decide)]
    rfl
  · rw [size_append, hsize]
    rfl

theorem normalizeLoop_total (env : Env) :
    ∀ (toks : List Token) (s : NormState),
      (∀ tt ∈ toks, tt.Typ = .StartTagToken → tt.Data = "img" → tt.Attr ≠ []) →
      ∃ out, normalizeLoop env s toks = .ok out := by
  intro toks
  induction toks with
  | nil =>
    intro s _
    rw [normalizeLoop_nil]
    split <;> exact ⟨_, rfl⟩
  | cons tt rest ih =>
    intro s hattr
    unfold normalizeLoop
    cases hit : iteration env s tt with
    | next s' => exact ih s' (fun t ht => hattr t (List.mem_cons_of_mem _ ht))
    | ret o => exact ⟨o, rfl⟩
    | crash p =>
      exfalso
      have hat := hattr tt (List.mem_cons_self _ _)
      unfold iteration at hit
      dsimp only at hit
      split at hit
      · cases hit
      · split at hit
        · cases hit
        · rename_i hty
          split at hit
          · split at hit
            · cases hit
            · split at hit
              · rename_i himg
                split at hit
                · rename_i hnil
                  exact hat hty himg hnil
                · split at hit <;> cases hit
              · cases hit
          · cases hit
        all_goals (repeat' split at hit) <;> cases hit

/-- C7: the code panics where the claim promises a result.  On the fragment
`<img>`, an image start tag without attributes, `Attr[0]` is out of range;
on every token sequence in which each image start tag has an attribute the
function returns. -/
theorem NormalizeTokens_img_without_attributes_panics :
    (∀ env, NormalizeTokens env [startTag "img" []] = .error .indexOutOfRange) ∧
      (∀ env toks, (∀ tt ∈ toks, tt.Typ = .StartTagToken → tt.Data = "img" → tt.Attr ≠ []) →
        ∃ out, NormalizeTokens env toks = .ok out) :=
  ⟨fun _ => rfl, fun env toks h => normalizeLoop_total env toks _ h⟩

theorem iteration_img (env : Env) (s : NormState) (a : Attribute) (rest : List Attribute)
    (hs : s.out.utf8ByteSize ≤ 2500) :
    iteration env s (startTag "img" (a :: rest))
      = .next ⟨s.out ++ (if a.Key = "src" then a.Val ++ " " else " <img>"),
          startTag "img" (a :: rest)⟩ := by
  have hs' : ¬ s.out.utf8ByteSize > 2500 := by omega
  have hin : in_array "img" tags = true := rfl
  have hbr : ¬ ("img" : String) = "br" := by decide
  unfold iteration
  simp only [hs', if_false, startTag, hin, if_true, hbr]
  split <;> rfl

/-- C10: the code looks at the first attribute only.  An image start tag
whose src attribute is not the first one contributes the marker `<img>`, and
one without attributes makes the function panic; when the first attribute is
src the tag contributes its value and a space. -/
theorem NormalizeTokens_img_src_not_first :
    (∀ env, NormalizeTokens env
        [startTag "img" [⟨"", "alt", "logo"⟩, ⟨"", "src", "http://x/y.png"⟩]]
      = .ok " <img>") ∧
    (∀ env, NormalizeTokens env [startTag "img" []] = .error .indexOutOfRange) ∧
    (∀ env s a rest, s.out.utf8ByteSize ≤ 2500 →
      iteration env s (startTag "img" (a :: rest))
        = .next ⟨s.out ++ (if a.Key = "src" then a.Val ++ " " else " <img>"),
            startTag "img" (a :: rest)⟩) :=
  ⟨fun _ => rfl, fun _ => rfl, iteration_img⟩

/-! ### Truncation -/

theorem iteration_prev (env : Env) (s s' : NormState) (tt : Token)
    (h : iteration env s tt = .next s') :
    s'.previousStartTokenTest
      = if tt.Typ = .StartTagToken then tt else s.previousStartTokenTest := by
  unfold iteration at h
  dsimp only at h
  split at h
  · cases h
  · split at h
    · cases h
    · rename_i hty
      simp only [hty, if_true]
      repeat' split at h
      all_goals first | (cases h; rfl) | cases h
    all_goals
      rename_i hty
      simp only [hty]
      repeat' split at h
      all_goals (cases h; rfl)

theorem passes_prev (env : Env) :
    ∀ (pre : List Token) (s0 s : NormState), passes env s0 pre = some s →
      s.previousStartTokenTest = lastStartTag s0.previousStartTokenTest pre := by
  intro pre
  induction pre with
  | nil =>
    intro s0 s h
    simp only [passes, Option.some.injEq] at h
    subst h
    rfl
  | cons tt rest ih =>
    intro s0 s h
    unfold passes at h
    cases hit : iteration env s0 tt with
    | next s' =>
      simp only [hit] at h
      rw [ih s' s h, iteration_prev env s0 s' tt hit]
      by_cases hst : tt.Typ = .StartTagToken
      · simp [lastStartTag, hst]
      · simp [lastStartTag, hst]
    | ret o => simp [hit] at h
    | crash p => simp [hit] at h

/-- C9 (amended): when the passes over the tokens `pre` have brought the
emitted length above 2500, nothing that follows is looked at and the output
is the text emitted so far followed by a suffix that depends on the last
start tag token among `pre` alone, whatever its name and whether or not it
has been closed since: the closing marker for its name and the ellipsis when
the name is on the whitelist and is neither img nor br, the ellipsis alone
otherwise. -/
theorem NormalizeTokens_truncation (env : Env) (pre post : List Token) (s : NormState)
    (hpre : passes env ⟨"", errorToken⟩ pre = some s) (hlen : s.out.utf8ByteSize > 2500) :
    NormalizeTokens env (pre ++ post)
      = .ok (s.out ++
          if in_array (lastStartTag errorToken pre).Data tags = true ∧
              (lastStartTag errorToken pre).Data ≠ "img" ∧
              (lastStartTag errorToken pre).Data ≠ "br" then
            "</" ++ (lastStartTag errorToken pre).Data ++ "> ..."
          else " ...") := by
  unfold NormalizeTokens
  rw [passes_normalizeLoop env post pre _ s hpre, normalizeLoop_long env s post hlen,
    truncationSuffix_eq, passes_prev env pre _ s hpre]

/-- C9, a concrete run: bold text of 3000 letters followed by more text is
cut after the letters and closed with the marker for b. -/
theorem NormalizeTokens_truncation_witness :
    NormalizeTokens sampleEnv ([startTag "b" []] ++ [textTok (letters 3000)] ++ [textTok "more"])
      = .ok (" <b>" ++ letters 3000 ++ "</b> ...") := by
  have hsize : (" <b>" ++ letters 3000).utf8ByteSize = 3004 := by
    rw [size_append, size_letters]
    rfl
  exact NormalizeTokens_truncation sampleEnv ([startTag "b" []] ++ [textTok (letters 3000)])
    [textTok "more"] ⟨" <b>" ++ letters 3000, startTag "b" []⟩
    (passes_snoc sampleEnv [startTag "b" []] (textTok (letters 3000)) _
      ⟨" <b>", startTag "b" []⟩ _ rfl
      (iteration_text_letters ⟨" <b>", startTag "b" []⟩ 3000 (by decide) (by decide)))
    (by simp only [hsize]; decide)

/-- C9 as stated fails in both directions.  For `<b>x</b>` followed by 3000
letters the construct b is closed when the limit is passed, yet its closing
marker is appended.  For `<b><span>` followed by 3000 letters the construct
b is open, yet the ellipsis is appended alone, the last start tag being
span. -/
theorem NormalizeTokens_closing_marker_follows_last_start_tag :
    NormalizeTokens sampleEnv
        ([startTag "b" [], textTok "x", endTag "b"] ++ [textTok (letters 3000)])
      = .ok (" <b>x</b> " ++ letters 3000 ++ "</b> ...") ∧
    NormalizeTokens sampleEnv
        ([startTag "b" [], startTag "span" []] ++ [textTok (letters 3000)])
      = .ok (" <b>" ++ letters 3000 ++ " ...") := by
  have hs1 : (" <b>x</b> " ++ letters 3000).utf8ByteSize = 3010 := by
    rw [size_append, size_letters]
    rfl
  have hs2 : (" <b>" ++ letters 3000).utf8ByteSize = 3004 := by
    rw [size_append, size_letters]
    rfl
  constructor
  · unfold NormalizeTokens
    rw [passes_normalizeLoop sampleEnv _ [startTag "b" [], textTok "x", endTag "b"]
        ⟨"", errorToken⟩ ⟨" <b>x</b> ", startTag "b" []⟩ rfl,
      normalizeLoop_next _ _ _ _ _
        (iteration_text_letters ⟨" <b>x</b> ", startTag "b" []⟩ 3000 (by decide) (by decide)),
      normalizeLoop_long _ _ _ (by simp only [hs1]; decide)]
    rfl
  · unfold NormalizeTokens
    rw [passes_normalizeLoop sampleEnv _ [startTag "b" [], startTag "span" []]
        ⟨"", errorToken⟩ ⟨" <b>", startTag "span" []⟩ rfl,
      normalizeLoop_next _ _ _ _ _
        (iteration_text_letters ⟨" <b>", startTag "span" []⟩ 3000 (by decide) (by decide)),
      normalizeLoop_long _ _ _ (by simp only [hs2]; decide)]
    rfl

/-! ### Tags outside the whitelist -/

theorem truncationSuffix_unlisted (p : Token) (hp : in_array p.Data tags = false) :
    truncationSuffix p = " ..." := by
  simp [truncationSuffix, hp]

theorem iteration_unlisted_tag (env : Env) (s s' : NormState) (tt : Token)
    (hin : in_array tt.Data tags = false)
    (hty : tt.Typ = .StartTagToken ∨ tt.Typ = .EndTagToken ∨ tt.Typ = .SelfClosingTagToken)
    (h : iteration env s tt = .next s') : s'.out = s.out := by
  unfold iteration at h
  dsimp only at h
  split at h
  · cases h
  · rcases hty with hty | hty | hty <;> simp only [hty, hin] at h <;> cases h <;> rfl

theorem iteration_text (env : Env) (s : NormState) (tt : Token)
    (hty : tt.Typ = .TextToken) (hs : s.out.utf8ByteSize ≤ 2500)
    (hsc : s.previousStartTokenTest.Data ≠ "script") :
    iteration env s tt
      = .next ⟨s.out ++ TrimSpace (env.UnescapeString tt.Data), s.previousStartTokenTest⟩ := by
  have hs' : ¬ s.out.utf8ByteSize > 2500 := by omega
  unfold iteration
  simp only [hs', if_false, hty, hsc]
  split
  · rfl
  · rename_i hz
    have : TrimSpace (env.UnescapeString tt.Data) = "" := by
      apply (size_eq_zero _).mp
      omega
    rw [this, String.append_empty]

theorem iteration_unlisted_prev (env : Env) (o : String) (p q tt : Token)
    (hp : in_array p.Data tags = false) (hps : p.Data ≠ "script")
    (hq : in_array q.Data tags = false) (hqs : q.Data ≠ "script") :
    iteration env ⟨o, p⟩ tt = iteration env ⟨o, q⟩ tt ∨
      ∃ o', iteration env ⟨o, p⟩ tt = .next ⟨o', p⟩ ∧ iteration env ⟨o, q⟩ tt = .next ⟨o', q⟩ := by
  by_cases hlong : o.utf8ByteSize > 2500
  · left
    rw [iteration_long env ⟨o, p⟩ tt hlong, iteration_long env ⟨o, q⟩ tt hlong]
    simp only [truncationSuffix_unlisted p hp, truncationSuffix_unlisted q hq]
  · cases hty : tt.Typ with
    | ErrorToken =>
      left
      simp [iteration, hlong, hty]
    | StartTagToken =>
      left
      simp only [iteration, hlong, hty, if_false]
    | EndTagToken =>
      right
      cases hin : in_array tt.Data tags with
      | true =>
        exact ⟨o ++ ("</" ++ tt.Data ++ "> "), by simp [iteration, hlong, hty, hin],
          by simp [iteration, hlong, hty, hin]⟩
      | false =>
        exact ⟨o, by simp [iteration, hlong, hty, hin], by simp [iteration, hlong, hty, hin]⟩
    | SelfClosingTagToken =>
      right
      cases hin : in_array tt.Data tags with
      | true =>
        by_cases hbr : tt.Data = "br"
        · have hbrin : in_array "br" tags = true := rfl
          exact ⟨o ++ "\n", by simp [iteration, hlong, hty, hbr, hbrin],
            by simp [iteration, hlong, hty, hbr, hbrin]⟩
        · exact ⟨o, by simp [iteration, hlong, hty, hin, hbr],
            by simp [iteration, hlong, hty, hin, hbr]⟩
      | false =>
        exact ⟨o, by simp [iteration, hlong, hty, hin], by simp [iteration, hlong, hty, hin]⟩
    | TextToken =>
      right
      refine ⟨_, iteration_text env ⟨o, p⟩ tt hty (by simpa using hlong) hps, ?_⟩
      exact iteration_text env ⟨o, q⟩ tt hty (by simpa using hlong) hqs
    | CommentToken =>
      right
      exact ⟨o, by simp [iteration, hlong, hty], by simp [iteration, hlong, hty]⟩
    | DoctypeToken =>
      right
      exact ⟨o, by simp [iteration, hlong, hty], by simp [iteration, hlong, hty]⟩

theorem normalizeLoop_unlisted_prev (env : Env) (p q : Token)
    (hp : in_array p.Data tags = false) (hps : p.Data ≠ "script")
    (hq : in_array q.Data tags = false) (hqs : q.Data ≠ "script") :
    ∀ (toks : List Token) (o : String),
      normalizeLoop env ⟨o, p⟩ toks = normalizeLoop env ⟨o, q⟩ toks := by
  intro toks
  induction toks with
  | nil =>
    intro o
    simp only [normalizeLoop_nil, truncationSuffix_unlisted p hp, truncationSuffix_unlisted q hq]
  | cons tt rest ih =>
    intro o
    rcases iteration_unlisted_prev env o p q tt hp hps hq hqs with h | ⟨o', h1, h2⟩
    · unfold normalizeLoop
      rw [h]
    · unfold normalizeLoop
      rw [h1, h2]
      exact ih o'

theorem normalizeLoop_skip (env : Env) (s : NormState) (tt : Token) (rest : List Token)
    (h : iteration env s tt = .next s ∨ s.out.utf8ByteSize > 2500) :
    normalizeLoop env s (tt :: rest) = normalizeLoop env s rest := by
  by_cases hlong : s.out.utf8ByteSize > 2500
  · rw [normalizeLoop_long env s _ hlong, normalizeLoop_long env s _ hlong]
  · rcases h with h | h
    · rw [normalizeLoop, h]
    · exact absurd h hlong

theorem iteration_noop (env : Env) (s : NormState) (tt : Token)
    (hin : in_array tt.Data tags = false)
    (hty : tt.Typ = .EndTagToken ∨ tt.Typ = .SelfClosingTagToken) :
    iteration env s tt = .next s ∨ s.out.utf8ByteSize > 2500 := by
  by_cases hlong : s.out.utf8ByteSize > 2500
  · exact Or.inr hlong
  · left
    rcases hty with hty | hty <;> simp [iteration, hlong, hty, hin]

theorem normalizeLoop_cons_congr (env : Env) (s : NormState) (tt : Token) (a b : List Token)
    (h : ∀ s', normalizeLoop env s' a = normalizeLoop env s' b) :
    normalizeLoop env s (tt :: a) = normalizeLoop env s (tt :: b) := by
  unfold normalizeLoop
  cases iteration env s tt with
  | next s' => exact h s'
  | ret o => rfl
  | crash p => rfl

theorem normalizeLoop_strip (env : Env) :
    ∀ (toks : List Token) (s : NormState),
      normalizeLoop env s (stripUnlisted toks) = normalizeLoop env s toks := by
  intro toks
  induction toks with
  | nil =>
    intro s
    rfl
  | cons tt rest ih =>
    intro s
    unfold stripUnlisted
    cases hty : tt.Typ with
    | StartTagToken =>
      simp only
      split
      · exact normalizeLoop_cons_congr env s tt _ _ ih
      · rename_i hkeep
        simp only [Bool.or_eq_true, beq_iff_eq, not_or, Bool.not_eq_true] at hkeep
        by_cases hlong : s.out.utf8ByteSize > 2500
        · rw [normalizeLoop_long env s _ hlong, normalizeLoop_long env s _ hlong]
        · have h1 : iteration env s ⟨.StartTagToken, "", []⟩
              = .next ⟨s.out, ⟨.StartTagToken, "", []⟩⟩ := by
            have : in_array "" tags = false := rfl
            simp [iteration, hlong, this]
          have h2 : iteration env s tt = .next ⟨s.out, tt⟩ := by
            simp [iteration, hlong, hty, hkeep.1]
          rw [normalizeLoop_next env s _ _ _ h1, normalizeLoop_next env s _ _ _ h2, ih]
          exact normalizeLoop_unlisted_prev env ⟨.StartTagToken, "", []⟩ tt rfl (by decide)
            hkeep.1 hkeep.2 rest s.out
    | EndTagToken =>
      simp only
      split
      · exact normalizeLoop_cons_congr env s tt _ _ ih
      · rename_i hin
        rw [ih, normalizeLoop_skip env s tt rest
          (iteration_noop env s tt (by simpa using hin) (Or.inl hty))]
    | SelfClosingTagToken =>
      simp only
      split
      · exact normalizeLoop_cons_congr env s tt _ _ ih
      · rename_i hin
        rw [ih, normalizeLoop_skip env s tt rest
          (iteration_noop env s tt (by simpa using hin) (Or.inr hty))]
    | ErrorToken => exact normalizeLoop_cons_congr env s tt _ _ ih
    | TextToken => exact normalizeLoop_cons_congr env s tt _ _ ih
    | CommentToken => exact normalizeLoop_cons_congr env s tt _ _ ih
    | DoctypeToken => exact normalizeLoop_cons_congr env s tt _ _ ih

theorem iteration_unlisted_start (env : Env) (s : NormState) (tt : Token)
    (hty : tt.Typ = .StartTagToken) (hin : in_array tt.Data tags = false)
    (hs : s.out.utf8ByteSize ≤ 2500) :
    iteration env s tt = .next ⟨s.out, tt⟩ := by
  have hs' : ¬ s.out.utf8ByteSize > 2500 := by omega
  simp [iteration, hs', hty, hin]

/-- C8 (amended): a tag outside the whitelist never shows as a marker in the
output.  A pass over such a start, end or self-closing tag appends nothing;
such a start tag only becomes the last start tag; the suffix of a truncated
output is the ellipsis alone when the last start tag is such a tag; and the
whole output stays the same when such end tags and self-closing tags are
dropped and such start tags, script apart, lose name and attributes.  A text
token reached before the limit has its trimmed unescaped text appended
whenever the last start tag token before it is not script. -/
theorem NormalizeTokens_unlisted_tags (env : Env) :
    (∀ toks, NormalizeTokens env (stripUnlisted toks) = NormalizeTokens env toks) ∧
    (∀ s s' tt, in_array tt.Data tags = false →
      tt.Typ = .StartTagToken ∨ tt.Typ = .EndTagToken ∨ tt.Typ = .SelfClosingTagToken →
      iteration env s tt = .next s' → s'.out = s.out) ∧
    (∀ s tt, tt.Typ = .StartTagToken → in_array tt.Data tags = false →
      s.out.utf8ByteSize ≤ 2500 → iteration env s tt = .next ⟨s.out, tt⟩) ∧
    (∀ prev, in_array prev.Data tags = false → truncationSuffix prev = " ...") ∧
    (∀ s tt rest, tt.Typ = .TextToken → s.out.utf8ByteSize ≤ 2500 →
      s.previousStartTokenTest.Data ≠ "script" →
      normalizeLoop env s (tt :: rest)
        = normalizeLoop env
            ⟨s.out ++ TrimSpace (env.UnescapeString tt.Data), s.previousStartTokenTest⟩
            rest) :=
  ⟨fun toks => normalizeLoop_strip env toks _,
    fun s s' tt hin hty h => iteration_unlisted_tag env s s' tt hin hty h,
    fun s tt hty hin hs => iteration_unlisted_start env s tt hty hin hs,
    truncationSuffix_unlisted,
    fun s tt rest hty hs hsc => by rw [normalizeLoop, iteration_text env s tt hty hs hsc]⟩

/-- C8, a concrete run: the paragraph tags leave no trace and the text
between them appears. -/
theorem NormalizeTokens_unlisted_tags_witness :
    NormalizeTokens sampleEnv [startTag "p" [], textTok " Hello ", endTag "p"] = .ok "Hello" ∧
      NormalizeTokens sampleEnv (stripUnlisted [startTag "p" [], textTok " Hello ", endTag "p"])
        = NormalizeTokens sampleEnv [startTag "p" [], textTok " Hello ", endTag "p"] :=
  ⟨rfl, (NormalizeTokens_unlisted_tags sampleEnv).1 _⟩

/-- C8 as stated fails while the last start tag is script, which is outside
the whitelist: of `<script>alert(1)</script>` nothing appears in the output,
the text inside the construct included, and of
`<p><script>x</script>after</p>` nothing appears either, although the second
text stands inside the paragraph and behind the end of the script. -/
theorem NormalizeTokens_script_text_dropped :
    in_array "script" tags = false ∧ in_array "p" tags = false ∧
      NormalizeTokens sampleEnv [startTag "script" [], textTok "alert(1)", endTag "script"]
        = .ok "" ∧
      NormalizeTokens sampleEnv
          [startTag "p" [], startTag "script" [], textTok "x", endTag "script",
            textTok "after", endTag "p"]
        = .ok "" :=
  ⟨rfl, rfl, rfl, rfl⟩

end RSSCollector
